import Mathlib

/-!
Verification development for the vpk-rs VPK archive reader.

Strings are modelled as lists of byte values (`List Nat`, ASCII bytes written
as decimal literals, the intended text given in comments).  Hash computations
are modelled as the exact sequence of bytes fed to the hasher through
`Hasher::write_u8`; two values hash identically under every deterministic
hasher exactly when their write streams are equal.
-/

set_option maxRecDepth 10000

/-! ## Byte and ASCII helpers -/

/-- `u8::to_ascii_lowercase`: maps 65..90 (A..Z) to 97..122 (a..z). -/
def asciiLowerByte (b : Nat) : Nat := if 65 ≤ b ∧ b ≤ 90 then b + 32 else b

/-- `str::to_ascii_lowercase` / `<[u8]>::to_ascii_lowercase`, bytewise. -/
def asciiLower (s : List Nat) : List Nat := s.map asciiLowerByte

/-- `eq_ignore_ascii_case` on byte strings: equal length and bytewise equal
after ASCII lowercasing, i.e. the lowercasings coincide. -/
def eqci (a b : List Nat) : Bool := asciiLower a == asciiLower b

/-- A byte string is already ASCII-lowercase (no bytes 65..90). -/
def LowerFixed (s : List Nat) : Prop := asciiLower s = s

instance (s : List Nat) : Decidable (LowerFixed s) :=
  inferInstanceAs (Decidable (asciiLower s = s))

theorem andE {a b : Bool} (h : (a && b) = true) : a = true ∧ b = true := by
  simp at h
  exact h

theorem asciiLowerByte_idem (b : Nat) : asciiLowerByte (asciiLowerByte b) = asciiLowerByte b := by
  unfold asciiLowerByte
  by_cases h : 65 ≤ b ∧ b ≤ 90
  · rw [if_pos h, if_neg (by omega : ¬ (65 ≤ b + 32 ∧ b + 32 ≤ 90))]
  · rw [if_neg h, if_neg h]

theorem asciiLower_idem (s : List Nat) : asciiLower (asciiLower s) = asciiLower s := by
  unfold asciiLower
  rw [List.map_map]
  apply List.map_congr_left
  intro b _
  exact asciiLowerByte_idem b

theorem asciiLower_length (s : List Nat) : (asciiLower s).length = s.length := by
  simp [asciiLower]

theorem asciiLower_append (a b : List Nat) :
    asciiLower (a ++ b) = asciiLower a ++ asciiLower b := by
  simp [asciiLower]

theorem asciiLowerByte_slash (b : Nat) : asciiLowerByte b = 47 ↔ b = 47 := by
  unfold asciiLowerByte
  split <;> omega

theorem eqci_iff (a b : List Nat) : eqci a b = true ↔ asciiLower a = asciiLower b := by
  simp [eqci]

/-- `str::rsplit_once` at `/`: split at the last occurrence of `/` (byte 47),
returning the part before and the part after, neither containing that slash. -/
def rsplitSlash (l : List Nat) : Option (List Nat × List Nat) :=
  match l.reverse.findIdx? (· == 47) with
  | none => none
  | some j => some (l.take (l.length - 1 - j), l.drop (l.length - j))


/-! ## Hash-stream helpers (vpk.rs / access.rs free functions)

`hash_bytes` writes the bytes unchanged, `hash_bytes_as_lowercase` writes them
ASCII-lowercased, `hash_str` / `hash_str_as_lowercase` additionally write a
trailing `0xff` separator byte.  A hash stream is the list of bytes written. -/

def hashStr (s : List Nat) : List Nat := s ++ [255]

def hashStrLower (s : List Nat) : List Nat := asciiLower s ++ [255]

/-! ## access.rs key family

`src/access.rs` stores a `DirFile` as a shared byte buffer plus two
`Range<usize>` values; `dir()`/`filename()` slice the buffer.  Rust slicing
panics out of bounds; theorems that need exact slice lengths carry a
well-formedness hypothesis keeping the ranges inside the buffer. -/

def sliceR (data : List Nat) (s e : Nat) : List Nat := (data.drop s).take (e - s)

structure DirFileA where
  data : List Nat
  dirS : Nat
  dirE : Nat
  fileS : Nat
  fileE : Nat
deriving DecidableEq, Repr

def DirFileA.dir (k : DirFileA) : List Nat := sliceR k.data k.dirS k.dirE

def DirFileA.filename (k : DirFileA) : List Nat := sliceR k.data k.fileS k.fileE

/-- Ranges lie inside the buffer, so `Range::len` equals the slice length. -/
def DirFileA.Wf (k : DirFileA) : Prop :=
  k.dirS ≤ k.dirE ∧ k.dirE ≤ k.data.length ∧ k.fileS ≤ k.fileE ∧ k.fileE ≤ k.data.length

instance (k : DirFileA) : Decidable k.Wf :=
  inferInstanceAs (Decidable (_ ∧ _ ∧ _ ∧ _))

/-- `impl Hash for DirFile` (access.rs:65): lowercased dir, 0xff, lowercased
filename, 0xff. -/
def dfStreamA (k : DirFileA) : List Nat :=
  asciiLower k.dir ++ [255] ++ (asciiLower k.filename ++ [255])

/-- `impl PartialEq for DirFile` (access.rs:73): ASCII-case-insensitive on both
components. -/
def dfEqA (a b : DirFileA) : Bool := eqci a.dir b.dir && eqci a.filename b.filename

/-- access.rs `DirFileRef`: an exact-case query reference. -/
structure DirFileRefA where
  dir : List Nat
  filename : List Nat
deriving DecidableEq, Repr

/-- `impl Equivalent<DirFile> for DirFileRef` (access.rs:101): compares
case-insensitively. -/
def DirFileRefA.equivalent (q : DirFileRefA) (k : DirFileA) : Bool :=
  eqci q.dir k.dir && eqci q.filename k.filename

/-- `impl Hash for DirFileRef` (access.rs:110): raw bytes, not lowercased. -/
def refStreamA (q : DirFileRefA) : List Nat := hashStr q.dir ++ hashStr q.filename

/-- access.rs `DirFileRefLowercase`. -/
structure DirFileRefLowercaseA where
  dir : List Nat
  filename : List Nat
deriving DecidableEq, Repr

/-- `impl Equivalent<DirFile> for DirFileRefLowercase` (access.rs:129). -/
def DirFileRefLowercaseA.equivalent (q : DirFileRefLowercaseA) (k : DirFileA) : Bool :=
  eqci q.dir k.dir && eqci q.filename k.filename

/-- `impl Hash for DirFileRefLowercase` (access.rs:138): lowercased bytes. -/
def refLowerStreamA (q : DirFileRefLowercaseA) : List Nat :=
  hashStrLower q.dir ++ hashStrLower q.filename

/-- access.rs `DirFileBigRef`: a known directory plus a possibly-nested
filename, split by `new` at the last `/`. -/
structure DirFileBigRefA where
  dir : List Nat
  extra : List Nat
  filename : List Nat
deriving DecidableEq, Repr

/-- `DirFileBigRef::new` (access.rs:157). -/
def DirFileBigRefA.new (dir bigFilename : List Nat) : DirFileBigRefA :=
  match rsplitSlash bigFilename with
  | some (e, f) => ⟨dir, e, f⟩
  | none => ⟨dir, [], bigFilename⟩

/-- `impl Equivalent<DirFile> for DirFileBigRef` (access.rs:172).  The length
guard uses the stored `Range` length `dirE - dirS`; the byte comparisons use
the slice. -/
def DirFileBigRefA.equivalent (q : DirFileBigRefA) (k : DirFileA) : Bool :=
  if q.dir.length + q.extra.length > k.dirE - k.dirS then false
  else
    let keyDir := k.dir
    if ¬ eqci (keyDir.take q.dir.length) q.dir then false
    else
      let rem := keyDir.drop q.dir.length
      if q.extra = [] then decide (rem = []) && eqci q.filename k.filename
      else
        match rem with
        | 47 :: rest => eqci rest q.extra && eqci q.filename k.filename
        | _ => eqci rem q.extra && eqci q.filename k.filename

/-- `impl Hash for DirFileBigRef` (access.rs:208): raw dir, then (if extra
non-empty) a `/` separator when dir is non-empty followed by raw extra, then
0xff, then `hash_str` of the filename. -/
def bigStreamA (q : DirFileBigRefA) : List Nat :=
  q.dir ++ (if q.extra = [] then [] else (if q.dir = [] then [] else [47]) ++ q.extra)
    ++ [255] ++ hashStr q.filename

/-- access.rs `DirFileBigRefLowercase`. -/
structure DirFileBigRefLowercaseA where
  dir : List Nat
  extra : List Nat
  filename : List Nat
deriving DecidableEq, Repr

/-- `DirFileBigRefLowercase::new` (access.rs:231). -/
def DirFileBigRefLowercaseA.new (dir bigFilename : List Nat) : DirFileBigRefLowercaseA :=
  match rsplitSlash bigFilename with
  | some (e, f) => ⟨dir, e, f⟩
  | none => ⟨dir, [], bigFilename⟩

/-- `impl Equivalent<DirFile> for DirFileBigRefLowercase` (access.rs:245):
identical branch structure to the non-lowercase variant (both compare
case-insensitively in access.rs). -/
def DirFileBigRefLowercaseA.equivalent (q : DirFileBigRefLowercaseA) (k : DirFileA) : Bool :=
  if q.dir.length + q.extra.length > k.dirE - k.dirS then false
  else
    let keyDir := k.dir
    if ¬ eqci (keyDir.take q.dir.length) q.dir then false
    else
      let rem := keyDir.drop q.dir.length
      if q.extra = [] then decide (rem = []) && eqci q.filename k.filename
      else
        match rem with
        | 47 :: rest => eqci rest q.extra && eqci q.filename k.filename
        | _ => eqci rem q.extra && eqci q.filename k.filename

/-- `impl Hash for DirFileBigRefLowercase` (access.rs:281): as `DirFileBigRef`
but all text bytes lowercased. -/
def bigLowerStreamA (q : DirFileBigRefLowercaseA) : List Nat :=
  asciiLower q.dir
    ++ (if q.extra = [] then [] else (if q.dir = [] then [] else [47]) ++ asciiLower q.extra)
    ++ [255] ++ hashStrLower q.filename

/-! ## Error taxonomy (src/lib.rs)

The payload of `BinReadError` and the `io::Error` message strings are dropped; the
`io::ErrorKind` is kept since the spec distinguishes end-of-data from
invalid-UTF-8 failures. -/

inductive IOErrorKind where
  | unexpectedEof
  | invalidData
  | notFound
deriving DecidableEq, Repr

inductive Error where
  | readError : IOErrorKind → Error
  | expectedNullTerminator
  | binReadError
  | invalidSignature
  | unsupportedVersion : Nat → Error
  | hashSizeMismatch
  | malformedIndex
deriving DecidableEq, Repr

/-! ## Scanner primitives (little-endian reads over the loaded buffer)

`binread`/`parse.rs` read fixed-width little-endian integers and fail with an
error when fewer bytes remain. -/

def readBytes (buf : List Nat) (pos n : Nat) : Option (List Nat) :=
  if pos + n ≤ buf.length then some ((buf.drop pos).take n) else none

def leVal : List Nat → Nat
  | [] => 0
  | b :: rest => b + 256 * leVal rest

def readU16 (buf : List Nat) (pos : Nat) : Option Nat := (readBytes buf pos 2).map leVal

def readU32 (buf : List Nat) (pos : Nat) : Option Nat := (readBytes buf pos 4).map leVal

def readU128 (buf : List Nat) (pos : Nat) : Option Nat := (readBytes buf pos 16).map leVal

/-- `lo ≤ x ≤ hi` as a Bool. -/
def btw (lo x hi : Nat) : Bool := decide (lo ≤ x ∧ x ≤ hi)

/-- UTF-8 continuation byte. -/
def contB (c : Nat) : Bool := btw 128 c 191

/-- Validity of a byte string as UTF-8, as checked by `std::str::from_utf8`
(rejecting overlong encodings, surrogates and values above U+10FFFF). -/
def validUtf8 : List Nat → Bool
  | [] => true
  | b :: rest =>
    if b ≤ 127 then validUtf8 rest
    else if 194 ≤ b ∧ b ≤ 223 then
      match rest with
      | c1 :: r => contB c1 && validUtf8 r
      | [] => false
    else if b = 224 then
      match rest with
      | c1 :: c2 :: r => btw 160 c1 191 && contB c2 && validUtf8 r
      | _ => false
    else if 225 ≤ b ∧ b ≤ 236 then
      match rest with
      | c1 :: c2 :: r => contB c1 && contB c2 && validUtf8 r
      | _ => false
    else if b = 237 then
      match rest with
      | c1 :: c2 :: r => btw 128 c1 159 && contB c2 && validUtf8 r
      | _ => false
    else if 238 ≤ b ∧ b ≤ 239 then
      match rest with
      | c1 :: c2 :: r => contB c1 && contB c2 && validUtf8 r
      | _ => false
    else if b = 240 then
      match rest with
      | c1 :: c2 :: c3 :: r => btw 144 c1 191 && contB c2 && contB c3 && validUtf8 r
      | _ => false
    else if 241 ≤ b ∧ b ≤ 243 then
      match rest with
      | c1 :: c2 :: c3 :: r => contB c1 && contB c2 && contB c3 && validUtf8 r
      | _ => false
    else if b = 244 then
      match rest with
      | c1 :: c2 :: c3 :: r => btw 128 c1 143 && contB c2 && contB c3 && validUtf8 r
      | _ => false
    else false

/-- `read_cstring` (vpk.rs:629): scan from the cursor for the next null byte;
return the bytes before it and the position just past it.  No null byte before
the end of the buffer is an `UnexpectedEof` I/O error; invalid UTF-8 before
the null is an `InvalidData` I/O error.  `data[start..]` is modelled with
`List.drop`; the parser only ever calls this with `pos ≤ buf.length` (Rust
slicing would panic beyond that). -/
def readCstring (buf : List Nat) (pos : Nat) : Except Error (List Nat × Nat) :=
  match (buf.drop pos).findIdx? (· == 0) with
  | none => .error (.readError .unexpectedEof)
  | some i =>
    let s := (buf.drop pos).take i
    if validUtf8 s then .ok (s, pos + i + 1) else .error (.readError .invalidData)

/-! ## Fixed-layout records (src/structs.rs, src/entry.rs) -/

structure VPKHeader where
  signature : Nat
  version : Nat
  treeLength : Nat
deriving DecidableEq, Repr

def readHeader (buf : List Nat) : Option VPKHeader :=
  match readU32 buf 0, readU32 buf 4, readU32 buf 8 with
  | some s, some v, some t => some ⟨s, v, t⟩
  | _, _, _ => none

structure VPKHeaderV2 where
  embedChunkLength : Nat
  chunkHashesLength : Nat
  selfHashesLength : Nat
  signatureLength : Nat
deriving DecidableEq, Repr

def readHeaderV2 (buf : List Nat) (pos : Nat) : Option VPKHeaderV2 :=
  match readU32 buf pos, readU32 buf (pos + 4), readU32 buf (pos + 8), readU32 buf (pos + 12) with
  | some a, some b, some c, some d => some ⟨a, b, c, d⟩
  | _, _, _, _ => none

structure VPKHeaderV2Checksum where
  treeChecksum : Nat
  chunkHashesChecksum : Nat
  fileChecksum : Nat
deriving DecidableEq, Repr

def readChecksum (buf : List Nat) (pos : Nat) : Option VPKHeaderV2Checksum :=
  match readU128 buf pos, readU128 buf (pos + 16), readU128 buf (pos + 32) with
  | some a, some b, some c => some ⟨a, b, c⟩
  | _, _, _ => none

/-- The 18-byte directory record (entry.rs:107). -/
structure VPKDirectoryEntry where
  crc32 : Nat
  preloadLength : Nat
  archiveIndex : Nat
  archiveOffset : Nat
  fileLength : Nat
  suffix : Nat
deriving DecidableEq, Repr

def readDirEntry (buf : List Nat) (pos : Nat) : Option VPKDirectoryEntry :=
  match readU32 buf pos, readU16 buf (pos + 4), readU16 buf (pos + 6), readU32 buf (pos + 8),
      readU32 buf (pos + 12), readU16 buf (pos + 16) with
  | some a, some b, some c, some d, some e, some f => some ⟨a, b, c, d, e, f⟩
  | _, _, _, _, _, _ => none

/-- `VPKEntry` as built by `VPK::read` (vpk.rs:214): the parsed record, the
derived external-archive path, and the buffer position just after the record
(start of any inline payload).  The field set of entry.rs stores the path per
archive index on the parent instead; the derivation is the same. -/
structure VPKEntry where
  dirEntry : VPKDirectoryEntry
  archivePath : List Nat
  preloadStart : Nat
deriving DecidableEq, Repr

/-! ## vpk.rs key family (the `DirFile` stored in the tree, vpk.rs:317-511)

In vpk.rs `DirFile` holds the directory and filename strings themselves;
equality is derived (exact), the hash stream is the raw bytes of each
component followed by `0xff`. -/

structure DirFile where
  dir : List Nat
  filename : List Nat
deriving DecidableEq, Repr

/-- `impl Hash for DirFile` (vpk.rs:332). -/
def dfStream (k : DirFile) : List Nat := hashStr k.dir ++ hashStr k.filename

/-- vpk.rs `DirFileBigRef` (vpk.rs:391). -/
structure DirFileBigRef where
  dir : List Nat
  extra : List Nat
  filename : List Nat
deriving DecidableEq, Repr

/-- `DirFileBigRef::new` (vpk.rs:399). -/
def DirFileBigRef.new (dir bigFilename : List Nat) : DirFileBigRef :=
  match rsplitSlash bigFilename with
  | some (e, f) => ⟨dir, e, f⟩
  | none => ⟨dir, [], bigFilename⟩

/-- `impl Equivalent<DirFile> for DirFileBigRef` (vpk.rs:414): exact byte
comparisons.  `&key.dir[..dir_size]` / `key.dir.get(dir_size..)` are modelled
with `take`/`drop` on the byte list. -/
def DirFileBigRef.equivalent (q : DirFileBigRef) (k : DirFile) : Bool :=
  if q.dir.length + q.extra.length > k.dir.length then false
  else if k.dir.take q.dir.length ≠ q.dir then false
  else
    let rem := k.dir.drop q.dir.length
    if q.extra = [] then decide (rem = []) && (q.filename == k.filename)
    else
      match rem with
      | 47 :: rest => (rest == q.extra) && (q.filename == k.filename)
      | _ => (rem == q.extra) && (q.filename == k.filename)

/-- `impl Hash for DirFileBigRef` (vpk.rs:437). -/
def bigRefStream (q : DirFileBigRef) : List Nat :=
  q.dir ++ (if q.extra = [] then [] else (if q.dir = [] then [] else [47]) ++ q.extra)
    ++ [255] ++ hashStr q.filename

/-- vpk.rs `DirFileBigRefLowercase` (vpk.rs:452). -/
structure DirFileBigRefLowercase where
  dir : List Nat
  extra : List Nat
  filename : List Nat
deriving DecidableEq, Repr

/-- `DirFileBigRefLowercase::new` (vpk.rs:460). -/
def DirFileBigRefLowercase.new (dir bigFilename : List Nat) : DirFileBigRefLowercase :=
  match rsplitSlash bigFilename with
  | some (e, f) => ⟨dir, e, f⟩
  | none => ⟨dir, [], bigFilename⟩

/-- `impl Equivalent<DirFile> for DirFileBigRefLowercase` (vpk.rs:474):
ASCII-case-insensitive comparisons, same branch structure. -/
def DirFileBigRefLowercase.equivalent (q : DirFileBigRefLowercase) (k : DirFile) : Bool :=
  if q.dir.length + q.extra.length > k.dir.length then false
  else if ¬ eqci (k.dir.take q.dir.length) q.dir then false
  else
    let rem := k.dir.drop q.dir.length
    if q.extra = [] then decide (rem = []) && eqci q.filename k.filename
    else
      match rem with
      | 47 :: rest => eqci rest q.extra && eqci q.filename k.filename
      | _ => eqci rem q.extra && eqci q.filename k.filename

/-- `impl Hash for DirFileBigRefLowercase` (vpk.rs:499). -/
def bigLowerStream (q : DirFileBigRefLowercase) : List Nat :=
  asciiLower q.dir
    ++ (if q.extra = [] then [] else (if q.dir = [] then [] else [47]) ++ asciiLower q.extra)
    ++ [255] ++ hashStrLower q.filename

/-- Match predicate used by the `IndexMap` model for the exact big-ref query:
`IndexMap::get` locates the bucket through the hash of the query and then tests
`Equivalent`; an entry is found exactly when the two hash streams coincide
(equal streams give equal hashes under every hasher) and the query is
equivalent to the stored key. -/
def matchesBig (q : DirFileBigRef) (k : DirFile) : Bool :=
  q.equivalent k && (bigRefStream q == dfStream k)

/-- Match predicate for the case-insensitive big-ref query. -/
def matchesBigLower (q : DirFileBigRefLowercase) (k : DirFile) : Bool :=
  q.equivalent k && (bigLowerStream q == dfStream k)

/-! ## The index tree (vpk.rs:513-627)

`IndexMap<DirFile, VPKEntry>` is modelled as an insertion-ordered association
list.  `insert` replaces the value of the (unique) pair whose key is equal
(the derived exact equality of `DirFile`), keeping the original key and position,
and otherwise appends; `get` returns the first pair satisfying the match
predicate of the query. -/

abbrev EntryMap := List (DirFile × VPKEntry)

def insertPair : EntryMap → DirFile → VPKEntry → EntryMap
  | [], k, v => [(k, v)]
  | p :: rest, k, v => if p.1 = k then (p.1, v) :: rest else p :: insertPair rest k v

def findQ (m : EntryMap) (q : DirFile → Bool) : Option VPKEntry :=
  (m.find? (fun p => q p.1)).map (fun p => p.2)

/-- `VExt` (vpk.rs:25). -/
inductive VExt where
  | vmt | vtf | mdl | scr | xsc | gam | lst | dsp | ico | icns | bmp | dat
  | other : List Nat → VExt
deriving DecidableEq, Repr

/-- `VExt::from_ext_str` (vpk.rs:77): ASCII-lowercase the string, then match
the canonical extension names. -/
def VExt.fromExtStr (s : List Nat) : VExt :=
  let t := asciiLower s
  if t = [118, 109, 116] then .vmt        -- vmt
  else if t = [118, 116, 102] then .vtf   -- vtf
  else if t = [109, 100, 108] then .mdl   -- mdl
  else if t = [115, 99, 114] then .scr    -- scr
  else if t = [120, 115, 99] then .xsc    -- xsc
  else if t = [103, 97, 109] then .gam    -- gam
  else if t = [108, 115, 116] then .lst   -- lst
  else if t = [100, 115, 112] then .dsp   -- dsp
  else if t = [105, 99, 111] then .ico    -- ico
  else if t = [105, 99, 110, 115] then .icns -- icns
  else if t = [98, 109, 112] then .bmp    -- bmp
  else if t = [100, 97, 116] then .dat    -- dat
  else .other t

/-- `VPKTree` (vpk.rs:521): one dedicated map per common extension plus an
`other` table keyed by the raw extension string. -/
structure VPKTree where
  vmt : EntryMap
  vtf : EntryMap
  mdl : EntryMap
  scr : EntryMap
  xsc : EntryMap
  gam : EntryMap
  lst : EntryMap
  dsp : EntryMap
  ico : EntryMap
  icns : EntryMap
  bmp : EntryMap
  dat : EntryMap
  other : List (List Nat × EntryMap)
deriving DecidableEq, Repr

def VPKTree.empty : VPKTree := ⟨[], [], [], [], [], [], [], [], [], [], [], [], []⟩

def insertOther : List (List Nat × EntryMap) → List Nat → DirFile → VPKEntry →
    List (List Nat × EntryMap)
  | [], s, k, v => [(s, [(k, v)])]
  | p :: rest, s, k, v =>
    if p.1 = s then (p.1, insertPair p.2 k v) :: rest else p :: insertOther rest s k v

def findOther : List (List Nat × EntryMap) → List Nat → Option EntryMap
  | [], _ => none
  | p :: rest, s => if p.1 = s then some p.2 else findOther rest s

/-- `VPKTree::insert` (vpk.rs:596). -/
def VPKTree.insert (t : VPKTree) (ext : VExt) (dir name : List Nat) (v : VPKEntry) : VPKTree :=
  match ext with
  | .vmt => { t with vmt := insertPair t.vmt ⟨dir, name⟩ v }
  | .vtf => { t with vtf := insertPair t.vtf ⟨dir, name⟩ v }
  | .mdl => { t with mdl := insertPair t.mdl ⟨dir, name⟩ v }
  | .scr => { t with scr := insertPair t.scr ⟨dir, name⟩ v }
  | .xsc => { t with xsc := insertPair t.xsc ⟨dir, name⟩ v }
  | .gam => { t with gam := insertPair t.gam ⟨dir, name⟩ v }
  | .lst => { t with lst := insertPair t.lst ⟨dir, name⟩ v }
  | .dsp => { t with dsp := insertPair t.dsp ⟨dir, name⟩ v }
  | .ico => { t with ico := insertPair t.ico ⟨dir, name⟩ v }
  | .icns => { t with icns := insertPair t.icns ⟨dir, name⟩ v }
  | .bmp => { t with bmp := insertPair t.bmp ⟨dir, name⟩ v }
  | .dat => { t with dat := insertPair t.dat ⟨dir, name⟩ v }
  | .other s => { t with other := insertOther t.other s ⟨dir, name⟩ v }

/-- `VPKTree::for_ext` (vpk.rs:540). -/
def VPKTree.forExt (t : VPKTree) : VExt → Option EntryMap
  | .vmt => some t.vmt
  | .vtf => some t.vtf
  | .mdl => some t.mdl
  | .scr => some t.scr
  | .xsc => some t.xsc
  | .gam => some t.gam
  | .lst => some t.lst
  | .dsp => some t.dsp
  | .ico => some t.ico
  | .icns => some t.icns
  | .bmp => some t.bmp
  | .dat => some t.dat
  | .other s => findOther t.other s

/-- `VPKTree::get` (vpk.rs:569): big-ref lookup with exact comparison. -/
def VPKTree.get (t : VPKTree) (ext : VExt) (dirStart bigFilename : List Nat) : Option VPKEntry :=
  (t.forExt ext).bind (fun m => findQ m (matchesBig (DirFileBigRef.new dirStart bigFilename)))

/-- `VPKTree::get_ignore_case` (vpk.rs:578). -/
def VPKTree.getIgnoreCase (t : VPKTree) (ext : VExt) (dirStart bigFilename : List Nat) :
    Option VPKEntry :=
  (t.forExt ext).bind
    (fun m => findQ m (matchesBigLower (DirFileBigRefLowercase.new dirStart bigFilename)))

/-! ## Archive path derivation (vpk.rs:211-213)

`dir_path.replace("dir.", format!("{:03}.", archive_index))`: every occurrence
of the byte pattern `dir.` is replaced by the archive index formatted in
decimal, left-zero-padded to at least three digits, followed by a dot.  The
recursions are driven by an always-sufficient fuel so that they compute by
kernel reduction. -/

def decDigitsGo : Nat → Nat → List Nat
  | 0, _ => []
  | f + 1, n => if n < 10 then [48 + n] else decDigitsGo f (n / 10) ++ [48 + n % 10]

def decDigits (n : Nat) : List Nat := decDigitsGo (n + 1) n

def pad3 (n : Nat) : List Nat :=
  let d := decDigits n
  List.replicate (3 - d.length) 48 ++ d

def replaceAllGo (pat rep : List Nat) : Nat → List Nat → List Nat
  | 0, s => s
  | f + 1, s =>
    if pat ≠ [] ∧ pat.isPrefixOf s then rep ++ replaceAllGo pat rep f (s.drop pat.length)
    else
      match s with
      | [] => []
      | a :: rest => a :: replaceAllGo pat rep f rest

def replaceAll (s pat rep : List Nat) : List Nat := replaceAllGo pat rep (s.length + 1) s

def archivePathOf (dirPath : List Nat) (idx : Nat) : List Nat :=
  replaceAll dirPath [100, 105, 114, 46] (pad3 idx ++ [46])   -- dir. -> NNN.


/-! ## The tree parser (`VPK::read`, vpk.rs:116-237)

The three nested loops are modelled with an always-sufficient fuel
(`buf.length + 4`, every iteration of every loop consumes at least one byte);
`none` marks fuel exhaustion and is unreachable from `VPK.read`.  Besides the
parse result, the loops also return the list of 18-byte records read and the
list of `insert` calls performed, in encounter order (ghost outputs used only
by theorems).  `name.to_lowercase()` is Unicode lowercasing; it is modelled by
the `lower` parameter, about which theorems assume only what holds of the real
function (it agrees with ASCII lowercasing on ASCII input and produces no
ASCII uppercase bytes). -/

structure Insertion where
  ext : VExt
  rawDir : List Nat
  dir : List Nat
  name : List Nat
  entry : VPKEntry
deriving DecidableEq, Repr

structure PCtx where
  lower : List Nat → List Nat
  dirPath : List Nat
  buf : List Nat
  headerLength : Nat
  treeLength : Nat

structure POut where
  res : Except Error (Nat × VPKTree)
  recs : List VPKDirectoryEntry
  ins : List Insertion

/-- The innermost (filename) loop, vpk.rs:193-230.  `u32` overflow of the
inline `archive_offset += header_length + tree_length` adjustment wraps. -/
def fileLoop (cx : PCtx) (ext : VExt) (rawPath path : List Nat) :
    Nat → Nat → VPKTree → Option POut
  | 0, _, _ => none
  | fuel + 1, pos, tree =>
    match readCstring cx.buf pos with
    | .error e => some ⟨.error e, [], []⟩
    | .ok (name, p1) =>
      if name = [] then some ⟨.ok (p1, tree), [], []⟩
      else
        let lname := cx.lower name
        match readDirEntry cx.buf p1 with
        | none => some ⟨.error .binReadError, [], []⟩
        | some de =>
          if de.suffix ≠ 65535 then some ⟨.error .malformedIndex, [de], []⟩
          else
            let de2 :=
              if de.archiveIndex = 32767 then
                { de with
                  archiveOffset :=
                    (de.archiveOffset + cx.headerLength + cx.treeLength) % 4294967296 }
              else de
            let entry : VPKEntry := ⟨de2, archivePathOf cx.dirPath de2.archiveIndex, p1 + 18⟩
            let i : Insertion := ⟨ext, rawPath, path, lname, entry⟩
            match fileLoop cx ext rawPath path fuel (p1 + 18) (tree.insert ext path lname entry) with
            | none => none
            | some out => some ⟨out.res, de :: out.recs, i :: out.ins⟩

/-- The directory loop, vpk.rs:175-231: a single-space directory string maps
to the shared empty root path, every other one is kept ASCII-lowercased. -/
def dirLoop (cx : PCtx) (ext : VExt) : Nat → Nat → VPKTree → Option POut
  | 0, _, _ => none
  | fuel + 1, pos, tree =>
    match readCstring cx.buf pos with
    | .error e => some ⟨.error e, [], []⟩
    | .ok (rawPath, p1) =>
      if rawPath = [] then some ⟨.ok (p1, tree), [], []⟩
      else
        let path := if rawPath = [32] then [] else asciiLower rawPath
        match fileLoop cx ext rawPath path fuel p1 tree with
        | none => none
        | some out =>
          match out.res with
          | .error e => some ⟨.error e, out.recs, out.ins⟩
          | .ok (p2, tree2) =>
            match dirLoop cx ext fuel p2 tree2 with
            | none => none
            | some out2 => some ⟨out2.res, out.recs ++ out2.recs, out.ins ++ out2.ins⟩

/-- The extension loop, vpk.rs:167-232. -/
def extLoop (cx : PCtx) : Nat → Nat → VPKTree → Option POut
  | 0, _, _ => none
  | fuel + 1, pos, tree =>
    match readCstring cx.buf pos with
    | .error e => some ⟨.error e, [], []⟩
    | .ok (extStr, p1) =>
      if extStr = [] then some ⟨.ok (p1, tree), [], []⟩
      else
        match dirLoop cx (VExt.fromExtStr extStr) fuel p1 tree with
        | none => none
        | some out =>
          match out.res with
          | .error e => some ⟨.error e, out.recs, out.ins⟩
          | .ok (p2, tree2) =>
            match extLoop cx fuel p2 tree2 with
            | none => none
            | some out2 => some ⟨out2.res, out.recs ++ out2.recs, out.ins ++ out2.ins⟩

/-- The archive handle (vpk.rs:102). -/
structure VPK where
  headerLength : Nat
  header : VPKHeader
  headerV2 : Option VPKHeaderV2
  headerV2Checksum : Option VPKHeaderV2Checksum
  tree : VPKTree
  data : List Nat
deriving DecidableEq, Repr

/-- `VPK::read` with ghost outputs: the records read and the insertions
performed.  `std::fs::read(dir_path)` is modelled by passing the file bytes
(`buf`) alongside the path.  Header staging follows vpk.rs:123-162: signature,
version, optional v2 extended header (self-hash length check before the
checksum seek), then the tree loops starting right after the headers.  The
fuel-exhaustion branches are unreachable. -/
def readFull (lower : List Nat → List Nat) (dirPath buf : List Nat) :
    Except Error VPK × List VPKDirectoryEntry × List Insertion :=
  match readHeader buf with
  | none => (.error .binReadError, [], [])
  | some h =>
    if h.signature ≠ 1437209140 then (.error .invalidSignature, [], [])
    else if h.version > 2 then (.error (.unsupportedVersion h.version), [], [])
    else if h.version = 2 then
      match readHeaderV2 buf 12 with
      | none => (.error .binReadError, [], [])
      | some h2 =>
        if h2.selfHashesLength ≠ 48 then (.error .hashSizeMismatch, [], [])
        else
          let checksumPos := 28 + (h.treeLength + h2.embedChunkLength + h2.chunkHashesLength) % 4294967296
          match readChecksum buf checksumPos with
          | none => (.error .binReadError, [], [])
          | some ck =>
            let cx : PCtx := ⟨lower, dirPath, buf, 28, h.treeLength⟩
            match extLoop cx (buf.length + 4) 28 VPKTree.empty with
            | none => (.error .malformedIndex, [], [])
            | some out =>
              match out.res with
              | .error e => (.error e, out.recs, out.ins)
              | .ok (_, tree) =>
                (.ok ⟨28, h, some h2, some ck, tree, buf⟩, out.recs, out.ins)
    else
      let cx : PCtx := ⟨lower, dirPath, buf, 12, h.treeLength⟩
      match extLoop cx (buf.length + 4) 12 VPKTree.empty with
      | none => (.error .malformedIndex, [], [])
      | some out =>
        match out.res with
        | .error e => (.error e, out.recs, out.ins)
        | .ok (_, tree) => (.ok ⟨12, h, none, none, tree, buf⟩, out.recs, out.ins)

/-- `VPK::read` (vpk.rs:116). -/
def VPK.read (lower : List Nat → List Nat) (dirPath buf : List Nat) : Except Error VPK :=
  (readFull lower dirPath buf).1

/-- The 18-byte directory records encountered by the parse, in order. -/
def readRecords (lower : List Nat → List Nat) (dirPath buf : List Nat) :
    List VPKDirectoryEntry :=
  (readFull lower dirPath buf).2.1

/-- The `tree.insert` calls performed by the parse, in order. -/
def insertions (lower : List Nat → List Nat) (dirPath buf : List Nat) : List Insertion :=
  (readFull lower dirPath buf).2.2

/-- `VPK::get` (vpk.rs:249): the returned `VPKEntryHandle` pairs the archive
with the matched entry; the model returns the entry component. -/
def VPK.get (v : VPK) (ext : VExt) (dir filename : List Nat) : Option VPKEntry :=
  v.tree.get ext dir filename

/-- `VPK::get_ignore_case` (vpk.rs:260). -/
def VPK.getIgnoreCase (v : VPK) (ext : VExt) (dir filename : List Nat) : Option VPKEntry :=
  v.tree.getIgnoreCase ext dir filename

/-! ## Entry data accessor (entry.rs:30-104) -/

/-- The inline branch of `get_with_file`: `&parent.data[preload_interval()]`.
`none` models the Rust panic when the interval exceeds the buffer. -/
def getInline (data : List Nat) (e : VPKEntry) : Option (List Nat) :=
  if e.preloadStart + e.dirEntry.preloadLength ≤ data.length then
    some (sliceR data e.preloadStart (e.preloadStart + e.dirEntry.preloadLength))
  else none

/-- `seek(Start(off))` followed by `read_exact` of `len` bytes: exactly `len`
bytes are returned, or an `UnexpectedEof` I/O error if fewer are available. -/
def readExactAt (bytes : List Nat) (off len : Nat) : Except IOErrorKind (List Nat) :=
  if off + len ≤ bytes.length then .ok (sliceR bytes off (off + len)) else .error .unexpectedEof

/-- `VPKEntry::get_with_file` (entry.rs:73).  The filesystem is modelled as a
map `fs` from paths to optional file contents; `File::open` of an absent path
is a `NotFound` I/O error.  The archive path consulted for a `None` reader is
the one derived at parse time (vpk.rs:211-213; entry.rs reads the same path
through the per-index cache on the parent). -/
def VPKEntry.getWithFile (parent : VPK) (fs : List Nat → Option (List Nat))
    (reader : Option (List Nat)) (e : VPKEntry) : Option (Except IOErrorKind (List Nat)) :=
  if e.dirEntry.archiveIndex = 32767 then
    (getInline parent.data e).map (fun s => .ok s)
  else
    match reader with
    | some r => some (readExactAt r e.dirEntry.archiveOffset e.dirEntry.fileLength)
    | none =>
      match fs e.archivePath with
      | none => some (.error .notFound)
      | some bytes => some (readExactAt bytes e.dirEntry.archiveOffset e.dirEntry.fileLength)

/-- `VPKEntry::get` (entry.rs:101): `get_with_file` with no reader. -/
def VPKEntry.get (parent : VPK) (fs : List Nat → Option (List Nat)) (e : VPKEntry) :
    Option (Except IOErrorKind (List Nat)) :=
  e.getWithFile parent fs none

deriving instance DecidableEq for Except

/-! ## Shape of the insertions performed by the parser -/

theorem fileLoop_ins (cx : PCtx) (ext : VExt) (rawPath path : List Nat) :
    ∀ fuel pos tree out, fileLoop cx ext rawPath path fuel pos tree = some out →
      ∀ i ∈ out.ins, i.ext = ext ∧ i.rawDir = rawPath ∧ i.dir = path ∧
        (∃ raw, i.name = cx.lower raw) ∧
        i.entry.archivePath = archivePathOf cx.dirPath i.entry.dirEntry.archiveIndex := by
  intro fuel
  induction fuel with
  | zero => intro pos tree out h; exact absurd h (by simp [fileLoop])
  | succ f ih =>
    intro pos tree out h
    rw [fileLoop] at h
    split at h
    · cases h
      intro i hi
      simp at hi
    · split at h
      · cases h
        intro i hi
        simp at hi
      · split at h
        · cases h
          intro i hi
          simp at hi
        · split at h
          · cases h
            intro i hi
            simp at hi
          · split at h
            all_goals
              dsimp only at h
              split at h
              · simp at h
              · rename_i out1 hrec
                cases h
                intro i hi
                simp only [List.mem_cons] at hi
                rcases hi with rfl | hi
                · exact ⟨rfl, rfl, rfl, ⟨_, rfl⟩, rfl⟩
                · exact ih _ _ _ hrec i hi

/-- What the parse guarantees of every insertion: the directory component is
the processed form of the raw directory cstring (single space becomes the
empty root path, anything else is ASCII-lowercased), the filename went
through `to_lowercase`, and the archive path is derived from the directory
file path by the `dir.` substitution. -/
def InsShape (lower : List Nat → List Nat) (dirPath : List Nat) (i : Insertion) : Prop :=
  i.dir = (if i.rawDir = [32] then [] else asciiLower i.rawDir) ∧
  (∃ raw, i.name = lower raw) ∧
  i.entry.archivePath = archivePathOf dirPath i.entry.dirEntry.archiveIndex

theorem dirLoop_ins (cx : PCtx) (ext : VExt) :
    ∀ fuel pos tree out, dirLoop cx ext fuel pos tree = some out →
      ∀ i ∈ out.ins, i.ext = ext ∧ InsShape cx.lower cx.dirPath i := by
  intro fuel
  induction fuel with
  | zero => intro pos tree out h; exact absurd h (by simp [dirLoop])
  | succ f ih =>
    intro pos tree out h
    rw [dirLoop] at h
    split at h
    · cases h
      intro i hi
      simp at hi
    · split at h
      · cases h
        intro i hi
        simp at hi
      · dsimp only at h
        split at h
        · simp at h
        · rename_i out1 hfl
          split at h
          · cases h
            intro i hi
            obtain ⟨hext, hraw, hdir, hname, hpath⟩ := fileLoop_ins cx ext _ _ f _ _ _ hfl i hi
            exact ⟨hext, by rw [hdir, hraw], hname, hpath⟩
          · split at h
            · simp at h
            · rename_i out2 hrec
              cases h
              intro i hi
              simp only [List.mem_append] at hi
              rcases hi with hi | hi
              · obtain ⟨hext, hraw, hdir, hname, hpath⟩ :=
                  fileLoop_ins cx ext _ _ f _ _ _ hfl i hi
                exact ⟨hext, by rw [hdir, hraw], hname, hpath⟩
              · exact ih _ _ _ hrec i hi

theorem extLoop_ins (cx : PCtx) :
    ∀ fuel pos tree out, extLoop cx fuel pos tree = some out →
      ∀ i ∈ out.ins, InsShape cx.lower cx.dirPath i := by
  intro fuel
  induction fuel with
  | zero => intro pos tree out h; exact absurd h (by simp [extLoop])
  | succ f ih =>
    intro pos tree out h
    rw [extLoop] at h
    split at h
    · cases h
      intro i hi
      simp at hi
    · split at h
      · cases h
        intro i hi
        simp at hi
      · split at h
        · simp at h
        · rename_i out1 hdl
          split at h
          · cases h
            intro i hi
            exact (dirLoop_ins cx _ f _ _ _ hdl i hi).2
          · split at h
            · simp at h
            · rename_i out2 hrec
              cases h
              intro i hi
              simp only [List.mem_append] at hi
              rcases hi with hi | hi
              · exact (dirLoop_ins cx _ f _ _ _ hdl i hi).2
              · exact ih _ _ _ hrec i hi

theorem readFull_cases (lower : List Nat → List Nat) (p buf : List Nat) :
    ∀ r, readFull lower p buf = r →
      ((∃ e, r.1 = .error e) ∧ r.2.1 = [] ∧ r.2.2 = []) ∨
      ∃ cx : PCtx, cx.lower = lower ∧ cx.dirPath = p ∧ cx.buf = buf ∧
        ∃ out, extLoop cx (buf.length + 4) cx.headerLength VPKTree.empty = some out ∧
          r.2.1 = out.recs ∧ r.2.2 = out.ins ∧
          (∀ e, out.res = .error e → r.1 = .error e) ∧
          (∀ pt tree, out.res = .ok (pt, tree) →
            ∃ v, r.1 = .ok v ∧ v.tree = tree ∧ v.data = buf) := by
  intro r hr
  unfold readFull at hr
  split at hr
  · exact Or.inl (by cases hr; exact ⟨⟨_, rfl⟩, rfl, rfl⟩)
  · split at hr
    · exact Or.inl (by cases hr; exact ⟨⟨_, rfl⟩, rfl, rfl⟩)
    · split at hr
      · exact Or.inl (by cases hr; exact ⟨⟨_, rfl⟩, rfl, rfl⟩)
      · split at hr
        · -- version 2
          split at hr
          · exact Or.inl (by cases hr; exact ⟨⟨_, rfl⟩, rfl, rfl⟩)
          · split at hr
            · exact Or.inl (by cases hr; exact ⟨⟨_, rfl⟩, rfl, rfl⟩)
            · dsimp only at hr
              split at hr
              · exact Or.inl (by cases hr; exact ⟨⟨_, rfl⟩, rfl, rfl⟩)
              · split at hr
                · exact Or.inl (by cases hr; exact ⟨⟨_, rfl⟩, rfl, rfl⟩)
                · rename_i out hx
                  split at hr
                  · rename_i e he
                    cases hr
                    refine Or.inr ⟨_, rfl, rfl, rfl, out, hx, rfl, rfl, ?_, ?_⟩
                    · intro e2 he2
                      rw [he] at he2
                      cases he2
                      rfl
                    · intro pt tree hok
                      rw [he] at hok
                      cases hok
                  · rename_i pt tree he
                    cases hr
                    refine Or.inr ⟨_, rfl, rfl, rfl, out, hx, rfl, rfl, ?_, ?_⟩
                    · intro e2 he2
                      rw [he] at he2
                      cases he2
                    · intro pt2 tree2 hok
                      rw [he] at hok
                      cases hok
                      exact ⟨_, rfl, rfl, rfl⟩
        · -- version 0 or 1
          dsimp only at hr
          split at hr
          · exact Or.inl (by cases hr; exact ⟨⟨_, rfl⟩, rfl, rfl⟩)
          · rename_i out hx
            split at hr
            · rename_i e he
              cases hr
              refine Or.inr ⟨_, rfl, rfl, rfl, out, hx, rfl, rfl, ?_, ?_⟩
              · intro e2 he2
                rw [he] at he2
                cases he2
                rfl
              · intro pt tree hok
                rw [he] at hok
                cases hok
            · rename_i pt tree he
              cases hr
              refine Or.inr ⟨_, rfl, rfl, rfl, out, hx, rfl, rfl, ?_, ?_⟩
              · intro e2 he2
                rw [he] at he2
                cases he2
              · intro pt2 tree2 hok
                rw [he] at hok
                cases hok
                exact ⟨_, rfl, rfl, rfl⟩

theorem insertions_shape (lower : List Nat → List Nat) (p buf : List Nat) :
    ∀ i ∈ insertions lower p buf, InsShape lower p i := by
  intro i hi
  rcases readFull_cases lower p buf _ rfl with ⟨-, -, h2⟩ | ⟨cx, hl, hp, -, out, hx, -, h2, -, -⟩
  · rw [insertions, h2] at hi
    simp at hi
  · rw [insertions, h2] at hi
    have := extLoop_ins cx _ _ _ _ hx i hi
    rw [hl, hp] at this
    exact this

/-! ## Record propagation: a bad terminator aborts with `MalformedIndex` -/

theorem fileLoop_recs (cx : PCtx) (ext : VExt) (rawPath path : List Nat) :
    ∀ fuel pos tree out, fileLoop cx ext rawPath path fuel pos tree = some out →
      (∃ r ∈ out.recs, r.suffix ≠ 65535) → out.res = .error .malformedIndex := by
  intro fuel
  induction fuel with
  | zero => intro pos tree out h; exact absurd h (by simp [fileLoop])
  | succ f ih =>
    intro pos tree out h hbad
    rw [fileLoop] at h
    split at h
    · cases h
      simp at hbad
    · split at h
      · cases h
        simp at hbad
      · split at h
        · cases h
          simp at hbad
        · split at h
          · cases h
            rfl
          · rename_i hgood
            split at h
            all_goals
              dsimp only at h
              split at h
              · simp at h
              · rename_i out1 hrec
                cases h
                obtain ⟨r, hr, hrs⟩ := hbad
                simp only [List.mem_cons] at hr
                rcases hr with rfl | hr
                · exact absurd hrs (by simpa using hgood)
                · exact ih _ _ out1 hrec ⟨r, hr, hrs⟩

theorem dirLoop_recs (cx : PCtx) (ext : VExt) :
    ∀ fuel pos tree out, dirLoop cx ext fuel pos tree = some out →
      (∃ r ∈ out.recs, r.suffix ≠ 65535) → out.res = .error .malformedIndex := by
  intro fuel
  induction fuel with
  | zero => intro pos tree out h; exact absurd h (by simp [dirLoop])
  | succ f ih =>
    intro pos tree out h hbad
    rw [dirLoop] at h
    split at h
    · cases h
      simp at hbad
    · split at h
      · cases h
        simp at hbad
      · dsimp only at h
        split at h
        · simp at h
        · rename_i out1 hfl
          split at h
          · rename_i e he
            cases h
            have := fileLoop_recs cx ext _ _ f _ _ _ hfl hbad
            rw [he] at this
            cases this
            rfl
          · rename_i p2 tree2 he
            split at h
            · simp at h
            · rename_i out2 hrec
              cases h
              obtain ⟨r, hr, hrs⟩ := hbad
              simp only [List.mem_append] at hr
              rcases hr with hr | hr
              · have := fileLoop_recs cx ext _ _ f _ _ _ hfl ⟨r, hr, hrs⟩
                rw [he] at this
                cases this
              · exact ih _ _ out2 hrec ⟨r, hr, hrs⟩

theorem extLoop_recs (cx : PCtx) :
    ∀ fuel pos tree out, extLoop cx fuel pos tree = some out →
      (∃ r ∈ out.recs, r.suffix ≠ 65535) → out.res = .error .malformedIndex := by
  intro fuel
  induction fuel with
  | zero => intro pos tree out h; exact absurd h (by simp [extLoop])
  | succ f ih =>
    intro pos tree out h hbad
    rw [extLoop] at h
    split at h
    · cases h
      simp at hbad
    · split at h
      · cases h
        simp at hbad
      · split at h
        · simp at h
        · rename_i out1 hdl
          split at h
          · rename_i e he
            cases h
            have := dirLoop_recs cx _ f _ _ _ hdl hbad
            rw [he] at this
            cases this
            rfl
          · rename_i p2 tree2 he
            split at h
            · simp at h
            · rename_i out2 hrec
              cases h
              obtain ⟨r, hr, hrs⟩ := hbad
              simp only [List.mem_append] at hr
              rcases hr with hr | hr
              · have := dirLoop_recs cx _ f _ _ _ hdl ⟨r, hr, hrs⟩
                rw [he] at this
                cases this
              · exact ih _ _ out2 hrec ⟨r, hr, hrs⟩

/-! ## The tree built by a successful parse is the fold of its insertions -/

def foldIns (t : VPKTree) (l : List Insertion) : VPKTree :=
  l.foldl (fun t i => t.insert i.ext i.dir i.name i.entry) t

theorem foldIns_append (t : VPKTree) (a b : List Insertion) :
    foldIns t (a ++ b) = foldIns (foldIns t a) b := by
  simp [foldIns]

theorem fileLoop_tree (cx : PCtx) (ext : VExt) (rawPath path : List Nat) :
    ∀ fuel pos tree out, fileLoop cx ext rawPath path fuel pos tree = some out →
      ∀ p2 t2, out.res = .ok (p2, t2) → t2 = foldIns tree out.ins := by
  intro fuel
  induction fuel with
  | zero => intro pos tree out h; exact absurd h (by simp [fileLoop])
  | succ f ih =>
    intro pos tree out h p2 t2 hres
    rw [fileLoop] at h
    split at h
    · cases h
      cases hres
    · split at h
      · cases h
        cases hres
        simp [foldIns]
      · split at h
        · cases h
          cases hres
        · split at h
          · cases h
            cases hres
          · split at h
            all_goals
              dsimp only at h
              split at h
              · simp at h
              · rename_i out1 hrec
                cases h
                exact ih _ _ out1 hrec p2 t2 hres

theorem dirLoop_tree (cx : PCtx) (ext : VExt) :
    ∀ fuel pos tree out, dirLoop cx ext fuel pos tree = some out →
      ∀ p2 t2, out.res = .ok (p2, t2) → t2 = foldIns tree out.ins := by
  intro fuel
  induction fuel with
  | zero => intro pos tree out h; exact absurd h (by simp [dirLoop])
  | succ f ih =>
    intro pos tree out h p2 t2 hres
    rw [dirLoop] at h
    split at h
    · cases h
      cases hres
    · split at h
      · cases h
        cases hres
        simp [foldIns]
      · dsimp only at h
        split at h
        · simp at h
        · rename_i out1 hfl
          split at h
          · cases h
            cases hres
          · rename_i q2 qt2 he
            split at h
            · simp at h
            · rename_i out2 hrec
              cases h
              have h1 := fileLoop_tree cx ext _ _ f _ _ _ hfl q2 qt2 he
              have h2 := ih _ _ out2 hrec p2 t2 hres
              rw [h2, h1, foldIns_append]

theorem extLoop_tree (cx : PCtx) :
    ∀ fuel pos tree out, extLoop cx fuel pos tree = some out →
      ∀ p2 t2, out.res = .ok (p2, t2) → t2 = foldIns tree out.ins := by
  intro fuel
  induction fuel with
  | zero => intro pos tree out h; exact absurd h (by simp [extLoop])
  | succ f ih =>
    intro pos tree out h p2 t2 hres
    rw [extLoop] at h
    split at h
    · cases h
      cases hres
    · split at h
      · cases h
        cases hres
        simp [foldIns]
      · split at h
        · simp at h
        · rename_i out1 hdl
          split at h
          · cases h
            cases hres
          · rename_i q2 qt2 he
            split at h
            · simp at h
            · rename_i out2 hrec
              cases h
              have h1 := dirLoop_tree cx _ f _ _ _ hdl q2 qt2 he
              have h2 := ih _ _ out2 hrec p2 t2 hres
              rw [h2, h1, foldIns_append]

/-- The tree of a successfully loaded archive is exactly the fold of the recorded
insertions over the empty tree, and its `data` is the input buffer. -/
theorem read_ok_tree (lower : List Nat → List Nat) (p buf : List Nat) (v : VPK)
    (h : VPK.read lower p buf = .ok v) :
    v.tree = foldIns VPKTree.empty (insertions lower p buf) ∧ v.data = buf := by
  rcases readFull_cases lower p buf _ rfl with ⟨⟨e, he⟩, -, -⟩ | ⟨cx, hl, hp, -, out, hx, -, h2, herr, hok⟩
  · rw [VPK.read, he] at h
    cases h
  · cases hres : out.res with
    | error e =>
      have := herr e hres
      rw [VPK.read, this] at h
      cases h
    | ok pt =>
      obtain ⟨p2, t2⟩ := pt
      obtain ⟨v2, hv2, hvt, hvd⟩ := hok p2 t2 hres
      rw [VPK.read, hv2] at h
      cases h
      refine ⟨?_, hvd⟩
      rw [hvt, insertions, h2]
      exact extLoop_tree cx _ _ _ _ hx p2 t2 hres

/-! ## Lookup in the folded entry maps -/

def findKey (m : EntryMap) (k : DirFile) : Option VPKEntry :=
  (m.find? (fun p => p.1 == k)).map (fun p => p.2)

def orO (a b : Option VPKEntry) : Option VPKEntry :=
  match a with
  | some v => some v
  | none => b

theorem orO_none_right (a : Option VPKEntry) : orO a none = a := by
  cases a <;> rfl

theorem orO_assoc_some (a : Option VPKEntry) (v : VPKEntry) (b : Option VPKEntry) :
    orO (orO a (some v)) b = orO a (some v) := by
  cases a <;> rfl

theorem findKey_nil (tgt : DirFile) : findKey [] tgt = none := rfl

theorem findKey_cons (p : DirFile × VPKEntry) (rest : EntryMap) (tgt : DirFile) :
    findKey (p :: rest) tgt = if p.1 = tgt then some p.2 else findKey rest tgt := by
  by_cases h : p.1 = tgt
  · have hb : (p.1 == tgt) = true := by simpa using h
    simp [findKey, List.find?, hb, h]
  · have hb : (p.1 == tgt) = false := by simpa using h
    simp [findKey, List.find?, hb, h]

theorem findKey_insertPair (k : DirFile) (v : VPKEntry) (tgt : DirFile) :
    ∀ m : EntryMap, findKey (insertPair m k v) tgt = if tgt = k then some v else findKey m tgt := by
  intro m
  induction m with
  | nil =>
    rw [insertPair, findKey_cons, findKey_nil]
    by_cases ht : tgt = k
    · rw [if_pos ht.symm, if_pos ht]
    · rw [if_neg (fun hh => ht hh.symm), if_neg ht]
  | cons p rest ih =>
    by_cases hk : p.1 = k
    · rw [insertPair, if_pos hk, findKey_cons, findKey_cons]
      by_cases ht : tgt = k
      · rw [if_pos (hk.trans ht.symm), if_pos ht]
      · have hne : ¬ p.1 = tgt := fun hh => ht (by rw [← hh]; exact hk)
        rw [if_neg hne, if_neg ht, if_neg hne]
    · rw [insertPair, if_neg hk, findKey_cons, ih]
      by_cases ht : tgt = k
      · have hne : ¬ p.1 = tgt := fun hh => hk (by rw [hh, ht])
        rw [if_neg hne, if_pos ht, if_pos ht]
      · rw [if_neg ht, findKey_cons, if_neg ht]

def foldAll (m : EntryMap) (l : List Insertion) : EntryMap :=
  l.foldl (fun m i => insertPair m ⟨i.dir, i.name⟩ i.entry) m

/-- The value of the last insertion in `l` whose key equals `tgt`. -/
def lastVal (l : List Insertion) (tgt : DirFile) : Option VPKEntry :=
  ((l.filter (fun i => (⟨i.dir, i.name⟩ : DirFile) == tgt)).getLast?).map (fun i => i.entry)

theorem getLast?_cons {α} (a : α) (l : List α) :
    (a :: l).getLast? = match l.getLast? with
      | some v => some v
      | none => some a := by
  cases l with
  | nil => rfl
  | cons b r =>
    rw [List.getLast?_cons_cons]
    cases hh : (b :: r).getLast? with
    | none => simp at hh
    | some v => rfl

theorem lastVal_cons (i : Insertion) (l : List Insertion) (tgt : DirFile) :
    lastVal (i :: l) tgt =
      if (⟨i.dir, i.name⟩ : DirFile) = tgt then orO (lastVal l tgt) (some i.entry)
      else lastVal l tgt := by
  by_cases h : (⟨i.dir, i.name⟩ : DirFile) = tgt
  · have hb : ((⟨i.dir, i.name⟩ : DirFile) == tgt) = true := by simpa using h
    have hf : List.filter (fun j => (⟨j.dir, j.name⟩ : DirFile) == tgt) (i :: l)
        = i :: List.filter (fun j => (⟨j.dir, j.name⟩ : DirFile) == tgt) l := by
      simp [List.filter_cons, hb]
    rw [if_pos h, lastVal, hf, getLast?_cons]
    cases hh : (List.filter (fun j => (⟨j.dir, j.name⟩ : DirFile) == tgt) l).getLast? with
    | none => simp [lastVal, hh, orO]
    | some v => simp [lastVal, hh, orO]
  · have hb : ((⟨i.dir, i.name⟩ : DirFile) == tgt) = false := by simpa using h
    have hf : List.filter (fun j => (⟨j.dir, j.name⟩ : DirFile) == tgt) (i :: l)
        = List.filter (fun j => (⟨j.dir, j.name⟩ : DirFile) == tgt) l := by
      simp [List.filter_cons, hb]
    rw [if_neg h, lastVal, hf]
    rfl

theorem findKey_foldAll (tgt : DirFile) :
    ∀ l m, findKey (foldAll m l) tgt = orO (lastVal l tgt) (findKey m tgt) := by
  intro l
  induction l with
  | nil => intro m; simp [foldAll, lastVal, orO]
  | cons i l ih =>
    intro m
    have hstep : foldAll m (i :: l) = foldAll (insertPair m ⟨i.dir, i.name⟩ i.entry) l := rfl
    rw [hstep, ih, findKey_insertPair, lastVal_cons]
    by_cases h : (⟨i.dir, i.name⟩ : DirFile) = tgt
    · rw [if_pos h, if_pos h.symm, orO_assoc_some]
    · rw [if_neg h, if_neg (fun hh => h hh.symm)]

theorem mem_keys_insertPair (k2 k : DirFile) (v : VPKEntry) :
    ∀ m : EntryMap, k2 ∈ (insertPair m k v).map (fun p => p.1) →
      k2 = k ∨ k2 ∈ m.map (fun p => p.1) := by
  intro m
  induction m with
  | nil => intro h; simp [insertPair] at h; exact Or.inl h
  | cons p rest ih =>
    intro h
    rw [insertPair] at h
    split at h
    · simp only [List.map_cons, List.mem_cons] at h
      rcases h with h | h
      · exact Or.inr (by simp [h])
      · exact Or.inr (by simp [h])
    · simp only [List.map_cons, List.mem_cons] at h
      rcases h with h | h
      · exact Or.inr (by simp [h])
      · rcases ih h with h2 | h2
        · exact Or.inl h2
        · exact Or.inr (by simp [h2])

theorem mem_keys_foldAll (k2 : DirFile) :
    ∀ l (m : EntryMap), k2 ∈ (foldAll m l).map (fun p => p.1) →
      k2 ∈ m.map (fun p => p.1) ∨ ∃ i ∈ l, k2 = (⟨i.dir, i.name⟩ : DirFile) := by
  intro l
  induction l with
  | nil => intro m h; exact Or.inl h
  | cons i l ih =>
    intro m h
    rcases ih _ h with h2 | h2
    · rcases mem_keys_insertPair k2 _ _ m h2 with h3 | h3
      · exact Or.inr ⟨i, by simp, h3⟩
      · exact Or.inl h3
    · obtain ⟨j, hj, hk⟩ := h2
      exact Or.inr ⟨j, by simp [hj], hk⟩

theorem find?_congr_list {α} (p q : α → Bool) :
    ∀ l : List α, (∀ x ∈ l, p x = q x) → l.find? p = l.find? q := by
  intro l
  induction l with
  | nil => intro _; rfl
  | cons a l ih =>
    intro h
    rw [List.find?_cons, List.find?_cons, h a (by simp)]
    cases q a
    · exact ih (fun x hx => h x (by simp [hx]))
    · rfl

/-- `findQ` with a predicate that agrees with key equality on every stored key
is `findKey`. -/
theorem findQ_eq_findKey (m : EntryMap) (q : DirFile → Bool) (tgt : DirFile)
    (h : ∀ k ∈ m.map (fun p => p.1), q k = (k == tgt)) :
    findQ m q = findKey m tgt := by
  unfold findQ findKey
  rw [find?_congr_list (fun p => q p.1) (fun p => p.1 == tgt) m
    (fun x hx => h x.1 (by exact List.mem_map_of_mem _ hx))]

/-! ## The per-extension table of a folded tree -/

theorem findOther_insertOther (k : DirFile) (v : VPKEntry) (s s2 : List Nat) :
    ∀ l, findOther (insertOther l s k v) s2 =
      if s2 = s then some (insertPair ((findOther l s).getD []) k v) else findOther l s2 := by
  intro l
  induction l with
  | nil =>
    by_cases h : s2 = s
    · subst h
      simp [insertOther, findOther, insertPair, Option.getD]
    · have h2 : ¬ s = s2 := fun hh => h hh.symm
      simp [insertOther, findOther, h, h2]
  | cons p rest ih =>
    by_cases hp : p.1 = s
    · rw [insertOther, if_pos hp, findOther]
      by_cases h : s2 = s
      · rw [if_pos (hp.trans h.symm), if_pos h, findOther, if_pos hp, Option.getD]
      · have hne : ¬ p.1 = s2 := fun hh => h (by rw [← hh]; exact hp)
        rw [if_neg hne, if_neg h, findOther, if_neg hne]
    · rw [insertOther, if_neg hp, findOther, ih]
      by_cases h : s2 = s
      · have hne : ¬ p.1 = s2 := fun hh => hp (by rw [hh, h])
        rw [if_neg hne, if_pos h, if_pos h, findOther, if_neg hp]
      · rw [if_neg h, if_neg h, findOther]

theorem forExt_insert (t : VPKTree) (e e2 : VExt) (d n : List Nat) (v : VPKEntry) :
    (t.insert e d n v).forExt e2 =
      if e2 = e then some (insertPair ((t.forExt e).getD []) ⟨d, n⟩ v) else t.forExt e2 := by
  cases e <;> cases e2 <;>
    simp [VPKTree.insert, VPKTree.forExt, findOther_insertOther, VExt.other.injEq]

def optFold (m : Option EntryMap) : List Insertion → Option EntryMap
  | [] => m
  | i :: rest => optFold (some (insertPair (m.getD []) ⟨i.dir, i.name⟩ i.entry)) rest

theorem optFold_some (l : List Insertion) :
    ∀ m : EntryMap, optFold (some m) l = some (foldAll m l) := by
  induction l with
  | nil => intro m; rfl
  | cons i l ih => intro m; exact ih _

theorem optFold_none_cons (i : Insertion) (l : List Insertion) :
    optFold none (i :: l) = some (foldAll [] (i :: l)) := by
  rw [optFold, Option.getD, optFold_some]
  rfl

theorem forExt_foldIns (e : VExt) :
    ∀ (l : List Insertion) (t : VPKTree),
      (foldIns t l).forExt e = optFold (t.forExt e) (l.filter (fun i => i.ext == e)) := by
  intro l
  induction l with
  | nil => intro t; rfl
  | cons i l ih =>
    intro t
    have hstep : foldIns t (i :: l) = foldIns (t.insert i.ext i.dir i.name i.entry) l := rfl
    rw [hstep, ih, forExt_insert]
    by_cases h : i.ext = e
    · have hb : (i.ext == e) = true := by simpa using h
      have hf : List.filter (fun j => j.ext == e) (i :: l)
          = i :: List.filter (fun j => j.ext == e) l := by simp [List.filter_cons, hb]
      rw [hf, if_pos h.symm, optFold, h]
    · have hb : (i.ext == e) = false := by simpa using h
      have hf : List.filter (fun j => j.ext == e) (i :: l)
          = List.filter (fun j => j.ext == e) l := by simp [List.filter_cons, hb]
      rw [hf, if_neg (fun hh => h hh.symm)]

/-- For a tree folded from the empty tree, the per-extension table of any
extension with at least one matching insertion is the folded entry map. -/
theorem forExt_foldIns_empty (e : VExt) (l : List Insertion)
    (hne : l.filter (fun i => i.ext == e) ≠ []) :
    (foldIns VPKTree.empty l).forExt e
      = some (foldAll [] (l.filter (fun i => i.ext == e))) := by
  rw [forExt_foldIns]
  cases he : VPKTree.empty.forExt e with
  | some m =>
    have hm : m = [] := by
      cases e <;> simp_all [VPKTree.forExt, VPKTree.empty, findOther]
    subst hm
    rw [optFold_some]
  | none =>
    cases hl : l.filter (fun i => i.ext == e) with
    | nil => exact absurd hl hne
    | cons i rest => rw [optFold_none_cons]

/-! ## Big-ref queries with a slash-free filename match exactly one key -/

theorem beq_list_eq_decide (a b : List Nat) : (a == b) = decide (a = b) := by
  by_cases h : a = b <;> simp [h]

theorem rsplitSlash_none (n : List Nat) (h : ¬ 47 ∈ n) : rsplitSlash n = none := by
  rw [rsplitSlash]
  have : n.reverse.findIdx? (· == 47) = none := by
    rw [List.findIdx?_eq_none_iff]
    intro x hx
    simp only [beq_eq_false_iff_ne, ne_eq]
    intro hh
    exact h (by rw [← hh]; exact (List.mem_reverse).mp hx)
  rw [this]

theorem eqci_length (a b : List Nat) (h : eqci a b = true) : a.length = b.length := by
  rw [eqci_iff] at h
  have := congrArg List.length h
  simpa [asciiLower_length] using this

theorem bigEquiv_noextra (d n : List Nat) (k : DirFile) :
    DirFileBigRef.equivalent ⟨d, [], n⟩ k
      = (decide (k.dir = d) && decide (n = k.filename)) := by
  unfold DirFileBigRef.equivalent
  dsimp only
  by_cases hg : d.length + List.length ([] : List Nat) > k.dir.length
  · rw [if_pos hg]
    have hne : ¬ k.dir = d := by
      intro hh
      rw [hh] at hg
      simp at hg
    simp [hne]
  · rw [if_neg hg]
    simp only [List.length_nil, Nat.add_zero, gt_iff_lt, Nat.not_lt] at hg
    by_cases ht : k.dir.take d.length = d
    · rw [if_neg (fun hc => hc ht), if_pos rfl]
      have hiff : (k.dir.drop d.length = []) ↔ (k.dir = d) := by
        constructor
        · intro hh
          have h2 := List.take_append_drop d.length k.dir
          rw [hh, List.append_nil, ht] at h2
          exact h2.symm
        · intro hh
          rw [hh]
          simp
      rw [show (decide (k.dir.drop d.length = []) : Bool) = decide (k.dir = d) from
        decide_eq_decide.mpr hiff]
      rw [beq_list_eq_decide]
    · rw [if_pos (by simpa using ht)]
      have hne : ¬ k.dir = d := by
        intro hh
        apply ht
        rw [hh]
        simp
      simp [hne]

theorem matchesBig_eq_key (d n : List Nat) (hn : ¬ 47 ∈ n) (k : DirFile) :
    matchesBig (DirFileBigRef.new d n) k = (k == (⟨d, n⟩ : DirFile)) := by
  have hnew : DirFileBigRef.new d n = ⟨d, [], n⟩ := by
    rw [DirFileBigRef.new, rsplitSlash_none n hn]
  rw [matchesBig, hnew, bigEquiv_noextra]
  by_cases hk : k = (⟨d, n⟩ : DirFile)
  · subst hk
    have hstream : bigRefStream ⟨d, [], n⟩ = dfStream ⟨d, n⟩ := by
      simp [bigRefStream, dfStream, hashStr]
    simp [hstream]
  · have hb : (k == (⟨d, n⟩ : DirFile)) = false := by simpa using hk
    rw [hb]
    by_cases hd : k.dir = d
    · by_cases hf : k.filename = n
      · exact absurd (by cases k; simp_all) hk
      · simp [hd, Ne.symm hf]
    · simp [hd]

theorem bigEquivLower_noextra (d n : List Nat) (k : DirFile) :
    DirFileBigRefLowercase.equivalent ⟨d, [], n⟩ k
      = (eqci k.dir d && eqci n k.filename) := by
  unfold DirFileBigRefLowercase.equivalent
  dsimp only
  by_cases hg : d.length + List.length ([] : List Nat) > k.dir.length
  · rw [if_pos hg]
    simp only [List.length_nil, Nat.add_zero, gt_iff_lt] at hg
    have hne : eqci k.dir d = false := by
      rw [Bool.eq_false_iff]
      intro hh
      have := eqci_length _ _ hh
      omega
    simp [hne]
  · rw [if_neg hg]
    simp only [List.length_nil, Nat.add_zero, gt_iff_lt, Nat.not_lt] at hg
    by_cases ht : eqci (k.dir.take d.length) d = true
    · rw [if_neg (by simpa using ht), if_pos rfl]
      have hiff : (k.dir.drop d.length = []) ↔ (eqci k.dir d = true) := by
        constructor
        · intro hh
          have h2 := List.take_append_drop d.length k.dir
          rw [hh, List.append_nil] at h2
          rw [← h2]
          exact ht
        · intro hh
          have := eqci_length _ _ hh
          apply List.eq_nil_of_length_eq_zero
          simp [this]
      have hd2 : (decide (k.dir.drop d.length = []) : Bool) = eqci k.dir d := by
        by_cases hh : eqci k.dir d = true
        · simp [hh, hiff.mpr hh]
        · have hb := Bool.eq_false_iff.mpr hh
          rw [hb]
          simp only [decide_eq_false_iff_not]
          intro h2
          exact hh (hiff.mp h2)
      rw [hd2]
    · rw [if_pos (by simpa using ht)]
      have hne : eqci k.dir d = false := by
        rw [Bool.eq_false_iff]
        intro hh
        apply ht
        have hl := eqci_length _ _ hh
        rw [← hl, List.take_length]
        exact hh
      simp [hne]

theorem matchesBigLower_eq_key (d2 n2 d n : List Nat) (hn2 : ¬ 47 ∈ n2)
    (hd : asciiLower d2 = d) (hnm : asciiLower n2 = n) (k : DirFile)
    (hkd : LowerFixed k.dir) (hkf : LowerFixed k.filename) :
    matchesBigLower (DirFileBigRefLowercase.new d2 n2) k = (k == (⟨d, n⟩ : DirFile)) := by
  have hnew : DirFileBigRefLowercase.new d2 n2 = ⟨d2, [], n2⟩ := by
    rw [DirFileBigRefLowercase.new, rsplitSlash_none n2 hn2]
  rw [matchesBigLower, hnew, bigEquivLower_noextra]
  have hdir : eqci k.dir d2 = decide (k.dir = d) := by
    by_cases hh : k.dir = d
    · have h1 : eqci k.dir d2 = true := by
        rw [eqci_iff, hh, ← hd, asciiLower_idem]
      rw [h1, hh]
      simp
    · have h1 : eqci k.dir d2 = false := by
        rw [Bool.eq_false_iff]
        intro h2
        rw [eqci_iff] at h2
        rw [LowerFixed] at hkd
        rw [hkd] at h2
        exact hh (h2.trans hd)
      rw [h1]
      simp [hh]
  have hfil : eqci n2 k.filename = decide (k.filename = n) := by
    by_cases hh : k.filename = n
    · have h1 : eqci n2 k.filename = true := by
        rw [eqci_iff, hh, ← hnm, asciiLower_idem]
      rw [h1, hh]
      simp
    · have h1 : eqci n2 k.filename = false := by
        rw [Bool.eq_false_iff]
        intro h2
        rw [eqci_iff] at h2
        rw [LowerFixed] at hkf
        rw [hkf] at h2
        exact hh (h2.symm.trans hnm)
      rw [h1]
      simp [hh]
  rw [hdir, hfil]
  by_cases hk : k = (⟨d, n⟩ : DirFile)
  · subst hk
    have hstream : bigLowerStream ⟨d2, [], n2⟩ = dfStream ⟨d, n⟩ := by
      simp [bigLowerStream, dfStream, hashStrLower, hashStr, hd, hnm]
    simp [hstream]
  · have hb : (k == (⟨d, n⟩ : DirFile)) = false := by simpa using hk
    rw [hb]
    by_cases hdd : k.dir = d
    · by_cases hf : k.filename = n
      · exact absurd (by cases k; simp_all) hk
      · simp [hdd, hf]
    · simp [hdd]

/-! ## C1: lookup of inserted triples -/

theorem insertion_clean (lower : List Nat → List Nat)
    (hlow : ∀ s, asciiLower (lower s) = lower s) (p buf : List Nat) (j : Insertion)
    (hj : j ∈ insertions lower p buf) : LowerFixed j.dir ∧ LowerFixed j.name := by
  obtain ⟨h1, ⟨raw, h2⟩, h3⟩ := insertions_shape lower p buf j hj
  constructor
  · rw [LowerFixed, h1]
    by_cases hr : j.rawDir = [32]
    · rw [if_pos hr]
      rfl
    · rw [if_neg hr, asciiLower_idem]
  · rw [LowerFixed, h2]
    exact hlow raw

/-- The entry of the last insertion with the given extension, directory and
filename. -/
def lastMatch (l : List Insertion) (e : VExt) (d n : List Nat) : Option VPKEntry :=
  ((l.filter (fun j => j.ext == e && (j.dir == d && j.name == n))).getLast?).map
    (fun j => j.entry)

theorem beq_df (a b : DirFile) : (a == b) = decide (a = b) := by
  by_cases h : a = b <;> simp [h]

theorem lastVal_filter_eq_lastMatch (l : List Insertion) (e : VExt) (d n : List Nat) :
    lastVal (l.filter (fun j => j.ext == e)) ⟨d, n⟩ = lastMatch l e d n := by
  rw [lastVal, lastMatch, List.filter_filter]
  have hpred : ∀ j : Insertion,
      (((⟨j.dir, j.name⟩ : DirFile) == (⟨d, n⟩ : DirFile)) && (j.ext == e))
        = (j.ext == e && (j.dir == d && j.name == n)) := by
    intro j
    have hdf : ((⟨j.dir, j.name⟩ : DirFile) == (⟨d, n⟩ : DirFile))
        = (j.dir == d && j.name == n) := by
      rw [beq_df, beq_list_eq_decide, beq_list_eq_decide]
      by_cases h1 : j.dir = d <;> by_cases h2 : j.name = n <;>
        simp [h1, h2, DirFile.mk.injEq]
    rw [hdf, Bool.and_comm]
  rw [List.filter_congr (fun j _ => hpred j)]

theorem mem_filter_self (i : Insertion) (l : List Insertion)
    (hi : i ∈ l) : i ∈ l.filter (fun j => j.ext == i.ext) :=
  List.mem_filter.mpr ⟨hi, by simp⟩

theorem getLast?_of_mem {α} (a : α) : ∀ l : List α, a ∈ l → ∃ b, l.getLast? = some b := by
  intro l
  induction l with
  | nil => intro h; simp at h
  | cons x r ih =>
    intro h
    rw [getLast?_cons]
    cases hh : r.getLast? with
    | none => exact ⟨x, rfl⟩
    | some b => exact ⟨b, rfl⟩

/-- C1 (amended): for every archive successfully returned by `VPK::read` and
for every triple inserted into its tree during that load whose filename
contains no `/`, the exact lookup `get` returns the entry of the most recent
insertion under that (extension, directory, filename) key, and
`get_ignore_case` returns the same entry for every ASCII-case variant of the
directory and filename.  The `lower` parameter models `str::to_lowercase`;
the hypothesis states that its output has no ASCII-uppercase bytes. -/
theorem c1_insert_lookup (lower : List Nat → List Nat)
    (hlow : ∀ s, asciiLower (lower s) = lower s)
    (p buf : List Nat) (v : VPK) (hok : VPK.read lower p buf = .ok v)
    (i : Insertion) (hi : i ∈ insertions lower p buf) (hns : ¬ 47 ∈ i.name)
    (dir2 name2 : List Nat) (hd2 : asciiLower dir2 = i.dir) (hn2 : asciiLower name2 = i.name) :
    ∃ e, lastMatch (insertions lower p buf) i.ext i.dir i.name = some e ∧
      v.get i.ext i.dir i.name = some e ∧
      v.getIgnoreCase i.ext dir2 name2 = some e := by
  obtain ⟨htr, hdata⟩ := read_ok_tree lower p buf v hok
  have hif : i ∈ (insertions lower p buf).filter (fun j => j.ext == i.ext) :=
    mem_filter_self i _ hi
  have hlfne : (insertions lower p buf).filter (fun j => j.ext == i.ext) ≠ [] := by
    intro hh
    rw [hh] at hif
    simp at hif
  have hforExt : v.tree.forExt i.ext
      = some (foldAll [] ((insertions lower p buf).filter (fun j => j.ext == i.ext))) := by
    rw [htr]
    exact forExt_foldIns_empty i.ext _ hlfne
  have hkeys : ∀ k ∈ (foldAll [] ((insertions lower p buf).filter
      (fun j => j.ext == i.ext))).map (fun q => q.1), LowerFixed k.dir ∧ LowerFixed k.filename := by
    intro k hk
    rcases mem_keys_foldAll k _ _ hk with h0 | ⟨j, hj, rfl⟩
    · simp at h0
    · have hj2 : j ∈ insertions lower p buf := (List.mem_filter.mp hj).1
      exact insertion_clean lower hlow p buf j hj2
  have hn2s : ¬ 47 ∈ name2 := by
    intro hmem
    apply hns
    rw [← hn2]
    have : asciiLowerByte 47 ∈ asciiLower name2 := List.mem_map_of_mem _ hmem
    simpa [asciiLowerByte] using this
  have hgete : v.get i.ext i.dir i.name
      = findKey (foldAll [] ((insertions lower p buf).filter (fun j => j.ext == i.ext)))
          ⟨i.dir, i.name⟩ := by
    rw [VPK.get, VPKTree.get, hforExt]
    exact findQ_eq_findKey _ _ _ (fun k _ => matchesBig_eq_key i.dir i.name hns k)
  have hgetc : v.getIgnoreCase i.ext dir2 name2
      = findKey (foldAll [] ((insertions lower p buf).filter (fun j => j.ext == i.ext)))
          ⟨i.dir, i.name⟩ := by
    rw [VPK.getIgnoreCase, VPKTree.getIgnoreCase, hforExt]
    exact findQ_eq_findKey _ _ _
      (fun k hk => matchesBigLower_eq_key dir2 name2 i.dir i.name hn2s hd2 hn2 k
        (hkeys k hk).1 (hkeys k hk).2)
  have hfind : findKey (foldAll [] ((insertions lower p buf).filter
      (fun j => j.ext == i.ext))) ⟨i.dir, i.name⟩
      = lastVal ((insertions lower p buf).filter (fun j => j.ext == i.ext)) ⟨i.dir, i.name⟩ := by
    rw [findKey_foldAll, findKey_nil, orO_none_right]
  have hlm := lastVal_filter_eq_lastMatch (insertions lower p buf) i.ext i.dir i.name
  have hexists : ∃ e, lastVal ((insertions lower p buf).filter
      (fun j => j.ext == i.ext)) ⟨i.dir, i.name⟩ = some e := by
    have hmemf : i ∈ ((insertions lower p buf).filter (fun j => j.ext == i.ext)).filter
        (fun j => (⟨j.dir, j.name⟩ : DirFile) == (⟨i.dir, i.name⟩ : DirFile)) :=
      List.mem_filter.mpr ⟨hif, by simp⟩
    obtain ⟨b, hb⟩ := getLast?_of_mem i _ hmemf
    exact ⟨b.entry, by rw [lastVal, hb]; rfl⟩
  obtain ⟨e, he⟩ := hexists
  refine ⟨e, ?_, ?_, ?_⟩
  · rw [← hlm]
    exact he
  · rw [hgete, hfind]
    exact he
  · rw [hgetc, hfind]
    exact he

/-! ## Concrete archives used by witnesses and counterexamples -/

/-- Directory-file path `x_dir.v`. -/
def c1path : List Nat := [120, 95, 100, 105, 114, 46, 118]

/-- v1 archive: extension `vmt`, directory `b`, filename `c`, one non-inline
record (crc 1, archive index 0, offset 5, length 7). -/
def c1buf : List Nat :=
  [52, 18, 170, 85, 1, 0, 0, 0, 29, 0, 0, 0,
   118, 109, 116, 0, 98, 0, 99, 0,
   1, 0, 0, 0, 0, 0, 0, 0, 5, 0, 0, 0, 7, 0, 0, 0, 255, 255,
   0, 0, 0]

def c1entry : VPKEntry :=
  ⟨⟨1, 0, 0, 5, 7, 65535⟩, [120, 95, 48, 48, 48, 46, 118], 38⟩

def c1ins : Insertion := ⟨.vmt, [98], [98], [99], c1entry⟩

/-- v1 archive whose single filename cstring is `b/c` (a filename containing
a slash), under the root directory (single space). -/
def c1xbuf : List Nat :=
  [52, 18, 170, 85, 1, 0, 0, 0, 29, 0, 0, 0,
   97, 0, 32, 0, 98, 47, 99, 0,
   0, 0, 0, 0, 0, 0, 0, 0, 0, 0, 0, 0, 0, 0, 0, 0, 255, 255,
   0, 0, 0]

/-- v1 archive with one inline entry (archive index 0x7fff) of preload length
1, whose single payload byte 0x41 sits right after the 18-byte record, then
the three loop terminators. -/
def c2buf : List Nat :=
  [52, 18, 170, 85, 1, 0, 0, 0, 28, 0, 0, 0,
   97, 0, 32, 0, 102, 0,
   0, 0, 0, 0, 1, 0, 255, 127, 0, 0, 0, 0, 0, 0, 0, 0, 255, 255,
   65, 0, 0, 0]

/-- v1 archive with one inline entry claiming preload length 5 while only the
three loop-terminator bytes follow the record. -/
def c10buf : List Nat :=
  [52, 18, 170, 85, 1, 0, 0, 0, 27, 0, 0, 0,
   97, 0, 32, 0, 102, 0,
   0, 0, 0, 0, 5, 0, 255, 127, 0, 0, 0, 0, 0, 0, 0, 0, 255, 255,
   0, 0, 0]

def c10entry : VPKEntry := ⟨⟨0, 5, 32767, 39, 0, 65535⟩, [], 36⟩

/-- v1 archive whose directory cstring is `B` (uppercase). -/
def c9buf : List Nat :=
  [52, 18, 170, 85, 1, 0, 0, 0, 29, 0, 0, 0,
   97, 0, 66, 0, 102, 0,
   0, 0, 0, 0, 0, 0, 0, 0, 0, 0, 0, 0, 0, 0, 0, 0, 255, 255,
   0, 0, 0]

/-- v1 archive whose directory cstring is a single space. -/
def c9buf2 : List Nat :=
  [52, 18, 170, 85, 1, 0, 0, 0, 29, 0, 0, 0,
   97, 0, 32, 0, 102, 0,
   0, 0, 0, 0, 0, 0, 0, 0, 0, 0, 0, 0, 0, 0, 0, 0, 255, 255,
   0, 0, 0]

def c9ins : Insertion := ⟨.other [97], [32], [], [102], ⟨⟨0, 0, 0, 0, 0, 65535⟩, [], 36⟩⟩

/-- v1 archive whose single 18-byte record carries terminator 0 instead of
0xFFFF. -/
def c6buf : List Nat :=
  [52, 18, 170, 85, 1, 0, 0, 0, 29, 0, 0, 0,
   97, 0, 98, 0, 102, 0,
   0, 0, 0, 0, 0, 0, 0, 0, 0, 0, 0, 0, 0, 0, 0, 0, 0, 0,
   0, 0, 0]

/-! ## C1 -/

/-- C1, counterexample: a load inserts the triple (ext `a`, dir ``, filename
`b/c`); the exact lookup `get` with exactly that triple returns nothing (the
big-ref query splits the filename at its `/`), and so does
`get_ignore_case`, refuting the claim as stated. -/
theorem c1_counterexample :
    (VPK.read asciiLower [] c1xbuf).isOk = true ∧
    (insertions asciiLower [] c1xbuf).map (fun i => (i.ext, i.dir, i.name))
      = [(.other [97], [], [98, 47, 99])] ∧
    (VPK.read asciiLower [] c1xbuf).toOption.bind
      (fun v => v.get (.other [97]) [] [98, 47, 99]) = none ∧
    (VPK.read asciiLower [] c1xbuf).toOption.bind
      (fun v => v.getIgnoreCase (.other [97]) [] [98, 47, 99]) = none := by
  decide

/-- The archive parsed from `c1buf`. -/
def c1vpk : VPK :=
  ⟨12, ⟨1437209140, 1, 29⟩, none, none,
    ⟨[(⟨[98], [99]⟩, c1entry)], [], [], [], [], [], [], [], [], [], [], [], []⟩, c1buf⟩

/-- C1, witness for the amended theorem: on a concrete archive, the inserted
triple (vmt, `b`, `c`) is found by `get` and, with case flipped, by
`get_ignore_case`, both returning the inserted entry. -/
theorem c1_witness :
    lastMatch (insertions asciiLower c1path c1buf) .vmt [98] [99] = some c1entry ∧
    c1vpk.get .vmt [98] [99] = some c1entry ∧
    c1vpk.getIgnoreCase .vmt [66] [67] = some c1entry := by
  obtain ⟨e, h1, h2, h3⟩ := c1_insert_lookup asciiLower asciiLower_idem c1path c1buf c1vpk
    (by decide) c1ins (by decide) (by decide) [66] [67] (by decide) (by decide)
  have he : e = c1entry := by
    have hx : c1vpk.get c1ins.ext c1ins.dir c1ins.name = some c1entry := by decide
    rw [h2] at hx
    exact Option.some.inj hx
  subst he
  exact ⟨h1, h2, h3⟩

/-! ## C2 -/

/-- C2: the parser records `preload_start` as the position right after the
18-byte record (36 here), but does not advance past the `preload_length`
bytes of inline payload: on `c2buf` it reads the payload byte 0x41 as the
next filename cstring and the load fails with a read error, where the
specified behavior (skip 1 byte, then read the three empty terminators)
would succeed. -/
theorem c2_preload_not_skipped :
    (insertions asciiLower [] c2buf).map
      (fun i => (i.entry.preloadStart, i.entry.dirEntry.preloadLength)) = [(36, 1)] ∧
    VPK.read asciiLower [] c2buf = .error .binReadError := by
  decide

/-! ## C5 -/

/-- C5 (amended): for inputs long enough that the checked header field is
actually read, the three header validations fail with their dedicated
errors: a full 12-byte header whose first u32 differs from 0x55AA1234 yields
`InvalidSignature`; a valid signature with version above 2 yields
`UnsupportedVersion`; a version-2 input with a full 28-byte extended header
whose self-hash length is not 48 yields `HashSizeMismatch`. -/
theorem c5_header_errors (lower : List Nat → List Nat) (p buf : List Nat) :
    (∀ s v t, readU32 buf 0 = some s → readU32 buf 4 = some v → readU32 buf 8 = some t →
      s ≠ 1437209140 → VPK.read lower p buf = .error .invalidSignature) ∧
    (∀ v t, readU32 buf 0 = some 1437209140 → readU32 buf 4 = some v →
      readU32 buf 8 = some t → v > 2 → VPK.read lower p buf = .error (.unsupportedVersion v)) ∧
    (∀ t a b c d, readU32 buf 0 = some 1437209140 → readU32 buf 4 = some 2 →
      readU32 buf 8 = some t → readU32 buf 12 = some a → readU32 buf 16 = some b →
      readU32 buf 20 = some c → readU32 buf 24 = some d → c ≠ 48 →
      VPK.read lower p buf = .error .hashSizeMismatch) := by
  refine ⟨?_, ?_, ?_⟩
  · intro s v t h1 h2 h3 hs
    have hh : readHeader buf = some ⟨s, v, t⟩ := by rw [readHeader, h1, h2, h3]
    rw [VPK.read, readFull, hh]
    dsimp only
    rw [if_pos hs]
  · intro v t h1 h2 h3 hv
    have hh : readHeader buf = some ⟨1437209140, v, t⟩ := by rw [readHeader, h1, h2, h3]
    rw [VPK.read, readFull, hh]
    dsimp only
    rw [if_neg (by simp), if_pos hv]
  · intro t a b c d h1 h2 h3 h4 h5 h6 h7 hc
    have hh : readHeader buf = some ⟨1437209140, 2, t⟩ := by rw [readHeader, h1, h2, h3]
    have hh2 : readHeaderV2 buf 12 = some ⟨a, b, c, d⟩ := by
      rw [readHeaderV2, h4]
      rw [show (12 : Nat) + 4 = 16 from rfl, h5]
      rw [show (12 : Nat) + 8 = 20 from rfl, h6]
      rw [show (12 : Nat) + 12 = 24 from rfl, h7]
    rw [VPK.read, readFull, hh]
    dsimp only
    rw [if_neg (by simp), if_neg (by simp), if_pos rfl, hh2]
    dsimp only
    rw [if_pos hc]

/-- C5, counterexample to the claim as stated: a 4-byte input whose first
u32 is 0 (not the magic) makes the header read itself fail, so `read`
returns the binread error, not `InvalidSignature`. -/
theorem c5_counterexample :
    readU32 [0, 0, 0, 0] 0 = some 0 ∧ (0 : Nat) ≠ 1437209140 ∧
    VPK.read asciiLower [] [0, 0, 0, 0] = .error .binReadError ∧
    VPK.read asciiLower [] [0, 0, 0, 0] ≠ .error .invalidSignature := by
  decide

/-- C5, witness: the three error paths on concrete 12- and 28-byte inputs. -/
theorem c5_witness :
    VPK.read asciiLower [] [0, 0, 0, 0, 1, 0, 0, 0, 0, 0, 0, 0]
      = .error .invalidSignature ∧
    VPK.read asciiLower [] [52, 18, 170, 85, 3, 0, 0, 0, 0, 0, 0, 0]
      = .error (.unsupportedVersion 3) ∧
    VPK.read asciiLower []
      [52, 18, 170, 85, 2, 0, 0, 0, 0, 0, 0, 0,
       0, 0, 0, 0, 0, 0, 0, 0, 47, 0, 0, 0, 0, 0, 0, 0]
      = .error .hashSizeMismatch := by
  refine ⟨?_, ?_, ?_⟩
  · exact (c5_header_errors asciiLower [] _).1 0 1 0 (by decide) (by decide) (by decide)
      (by decide)
  · exact (c5_header_errors asciiLower [] _).2.1 3 0 (by decide) (by decide) (by decide)
      (by decide)
  · exact (c5_header_errors asciiLower [] _).2.2 0 0 0 47 0 (by decide) (by decide)
      (by decide) (by decide) (by decide) (by decide) (by decide) (by decide)

/-! ## C6 -/

/-- C6: if any 18-byte directory record encountered during tree parsing has a
terminator other than 0xFFFF, the whole load aborts with `MalformedIndex`
(no archive is returned). -/
theorem c6_bad_terminator_aborts (lower : List Nat → List Nat) (p buf : List Nat)
    (h : ∃ r ∈ readRecords lower p buf, r.suffix ≠ 65535) :
    VPK.read lower p buf = .error .malformedIndex := by
  rcases readFull_cases lower p buf _ rfl with ⟨-, h1, -⟩ | ⟨cx, -, -, -, out, hx, h1, -, herr, -⟩
  · rw [readRecords, h1] at h
    simp at h
  · rw [readRecords, h1] at h
    exact herr _ (extLoop_recs cx _ _ _ _ hx h)

/-- C6, witness: a concrete record with terminator 0 is encountered and the
load returns `MalformedIndex`. -/
theorem c6_witness :
    (∃ r ∈ readRecords asciiLower [] c6buf, r.suffix ≠ 65535) ∧
    VPK.read asciiLower [] c6buf = .error .malformedIndex :=
  ⟨by decide, c6_bad_terminator_aborts asciiLower [] c6buf (by decide)⟩

/-! ## C9 -/

/-- C9 (amended): every insertion performed by the parser stores, as its
directory component, the empty path when the raw directory cstring is a
single space, and the ASCII-lowercased raw string otherwise. -/
theorem c9_dir_mapping (lower : List Nat → List Nat) (p buf : List Nat) :
    ∀ i ∈ insertions lower p buf,
      (i.rawDir = [32] → i.dir = []) ∧ (i.rawDir ≠ [32] → i.dir = asciiLower i.rawDir) := by
  intro i hi
  have h1 := (insertions_shape lower p buf i hi).1
  constructor
  · intro hc
    rw [h1, if_pos hc]
  · intro hc
    rw [h1, if_neg hc]

/-- C9, counterexample to the parenthetical as stated: the directory cstring
`B` is not kept as the directory path; the stored directory is its
lowercasing `b`. -/
theorem c9_counterexample :
    (VPK.read asciiLower [] c9buf).isOk = true ∧
    (insertions asciiLower [] c9buf).map (fun i => (i.rawDir, i.dir)) = [([66], [98])] ∧
    ([98] : List Nat) ≠ [66] := by
  decide

/-- C9, witness: on a concrete archive whose directory cstring is a single
space, the stored directory component is empty. -/
theorem c9_witness : c9ins ∈ insertions asciiLower [] c9buf2 ∧ c9ins.rawDir = [32] ∧
    c9ins.dir = [] :=
  ⟨by decide, rfl, (c9_dir_mapping asciiLower [] c9buf2 c9ins (by decide)).1 rfl⟩

/-! ## C10 -/

/-- C10: a successful load can store an inline entry whose preload interval
exceeds the loaded buffer: on `c10buf` the load succeeds, the stored entry
has `preload_start + preload_length = 41 > 39 = data.length`, and the inline
read of that entry hits the out-of-bounds slice (the `none` marks the Rust
panic), refuting the claimed invariant. -/
theorem c10_preload_interval_oob :
    (VPK.read asciiLower [] c10buf).isOk = true ∧
    (VPK.read asciiLower [] c10buf).toOption.bind
      (fun v => v.get (.other [97]) [] [102]) = some c10entry ∧
    c10entry.preloadStart + c10entry.dirEntry.preloadLength = 41 ∧
    c10buf.length = 39 ∧
    c10entry.dirEntry.archiveIndex = 32767 ∧
    (VPK.read asciiLower [] c10buf).toOption.bind
      (fun v => c10entry.getWithFile v (fun _ => none) none) = none := by
  decide

/-! ## C8 -/

/-- C8: the cstring scanner returns an end-of-data I/O error when no null
byte remains (stated for in-bounds cursors — beyond the buffer the Rust
slicing would panic before scanning), a typed invalid-data error when the
bytes before the null are not valid UTF-8, and a cstring failure at the tree
loops aborts the whole load with that error (stated at the first extension
string of a version ≤ 1 archive). -/
theorem c8_cstring_scanner (buf : List Nat) (pos : Nat) :
    (pos ≤ buf.length → ¬ (0 ∈ buf.drop pos) →
      readCstring buf pos = .error (.readError .unexpectedEof)) ∧
    (∀ i, (buf.drop pos).findIdx? (· == 0) = some i →
      validUtf8 ((buf.drop pos).take i) = false →
      readCstring buf pos = .error (.readError .invalidData)) ∧
    (∀ lower p s v t e, readU32 buf 0 = some s → s = 1437209140 →
      readU32 buf 4 = some v → v ≤ 1 → readU32 buf 8 = some t →
      readCstring buf 12 = .error e → VPK.read lower p buf = .error e) := by
  refine ⟨?_, ?_, ?_⟩
  · intro hpos hno
    have hn : (buf.drop pos).findIdx? (· == 0) = none := by
      rw [List.findIdx?_eq_none_iff]
      intro x hx
      simp only [beq_eq_false_iff_ne, ne_eq]
      intro hh
      exact hno (hh ▸ hx)
    rw [readCstring, hn]
  · intro i hi hv
    rw [readCstring, hi]
    try dsimp only
    rw [if_neg (by simp [hv])]
  · intro lower p s v t e h1 hs h2 hv h3 hc
    subst hs
    have hh : readHeader buf = some ⟨1437209140, v, t⟩ := by rw [readHeader, h1, h2, h3]
    rw [VPK.read, readFull, hh]
    try dsimp only
    rw [if_neg (by simp), if_neg (by omega), if_neg (by omega)]
    try dsimp only
    rw [show buf.length + 4 = (buf.length + 3) + 1 from rfl, extLoop]
    try dsimp only
    rw [hc]

/-- C8, witness: no null byte in `hi`; an invalid-UTF-8 cstring `0xff`; and a
concrete load aborted by the missing null terminator of its first extension
string. -/
theorem c8_witness :
    readCstring [104, 105] 0 = .error (.readError .unexpectedEof) ∧
    readCstring [255, 0] 0 = .error (.readError .invalidData) ∧
    VPK.read asciiLower [] [52, 18, 170, 85, 0, 0, 0, 0, 0, 0, 0, 0, 104]
      = .error (.readError .unexpectedEof) := by
  refine ⟨?_, ?_, ?_⟩
  · exact (c8_cstring_scanner [104, 105] 0).1 (by decide) (by decide)
  · exact (c8_cstring_scanner [255, 0] 0).2.1 1 (by decide) (by decide)
  · exact (c8_cstring_scanner [52, 18, 170, 85, 0, 0, 0, 0, 0, 0, 0, 0, 104] 0).2.2
      asciiLower [] 1437209140 0 0 (.readError .unexpectedEof)
      (by decide) rfl (by decide) (by decide) (by decide) (by decide)

/-! ## C7 -/

theorem sliceR_length (bytes : List Nat) (off len : Nat) (h : off + len ≤ bytes.length) :
    (sliceR bytes off (off + len)).length = len := by
  rw [sliceR]
  simp only [List.length_take, List.length_drop]
  omega

/-- C7: for a non-inline entry with no supplied reader, retrieval opens the
archive path derived at parse time (the directory path with `dir.` replaced
by the zero-padded 3-digit decimal archive index and a dot), seeks to
`archive_offset` and returns exactly `file_length` bytes, or a `NotFound` /
`UnexpectedEof` I/O error (never truncated data); and every entry stored by
the parser carries exactly that derived path. -/
theorem c7_external_retrieval (parent : VPK) (fs : List Nat → Option (List Nat))
    (e : VPKEntry) (h : e.dirEntry.archiveIndex ≠ 32767) :
    (e.getWithFile parent fs none = some (match fs e.archivePath with
      | none => .error .notFound
      | some bytes =>
        if e.dirEntry.archiveOffset + e.dirEntry.fileLength ≤ bytes.length
        then .ok (sliceR bytes e.dirEntry.archiveOffset
            (e.dirEntry.archiveOffset + e.dirEntry.fileLength))
        else .error .unexpectedEof)) ∧
    (∀ out, e.getWithFile parent fs none = some (.ok out) →
      out.length = e.dirEntry.fileLength) ∧
    (∀ lower p buf, ∀ i ∈ insertions lower p buf,
      i.entry.archivePath = archivePathOf p i.entry.dirEntry.archiveIndex) := by
  refine ⟨?_, ?_, ?_⟩
  · rw [VPKEntry.getWithFile, if_neg h]
    try dsimp only
    cases hfs : fs e.archivePath with
    | none => rfl
    | some bytes => rfl
  · intro out hout
    rw [VPKEntry.getWithFile, if_neg h] at hout
    try dsimp only at hout
    cases hfs : fs e.archivePath with
    | none =>
      rw [hfs] at hout
      simp at hout
    | some bytes =>
      rw [hfs] at hout
      try dsimp only at hout
      rw [readExactAt] at hout
      by_cases hle : e.dirEntry.archiveOffset + e.dirEntry.fileLength ≤ bytes.length
      · rw [if_pos hle] at hout
        simp only [Option.some.injEq, Except.ok.injEq] at hout
        rw [← hout]
        exact sliceR_length bytes _ _ hle
      · rw [if_neg hle] at hout
        simp at hout
  · intro lower p buf i hi
    exact (insertions_shape lower p buf i hi).2.2

/-- C7, witness: a concrete non-inline entry read through a one-file
filesystem returns exactly its 3 bytes from offset 1, and a parsed entry
carries the `dir.`-substituted path. -/
theorem c7_witness :
    VPKEntry.getWithFile ⟨12, ⟨1437209140, 1, 0⟩, none, none, VPKTree.empty, []⟩
      (fun q => if q = [55] then some [9, 8, 7, 6, 5] else none) none
      ⟨⟨0, 0, 0, 1, 3, 65535⟩, [55], 0⟩ = some (.ok [8, 7, 6]) ∧
    ([8, 7, 6] : List Nat).length = 3 ∧
    c1ins.entry.archivePath = archivePathOf c1path c1ins.entry.dirEntry.archiveIndex := by
  have h := c7_external_retrieval ⟨12, ⟨1437209140, 1, 0⟩, none, none, VPKTree.empty, []⟩
    (fun q => if q = [55] then some [9, 8, 7, 6, 5] else none)
    ⟨⟨0, 0, 0, 1, 3, 65535⟩, [55], 0⟩ (by decide)
  refine ⟨h.1.trans (by decide), by decide, ?_⟩
  exact h.2.2 asciiLower c1path c1buf c1ins (by decide)

/-! ## C3 -/

/-- Every branch of the access.rs big-ref equivalence requires the filenames
to match case-insensitively. -/
theorem bigEquivA_filename (q : DirFileBigRefA) (k : DirFileA)
    (h : q.equivalent k = true) : eqci q.filename k.filename = true := by
  unfold DirFileBigRefA.equivalent at h
  split at h
  · cases h
  · dsimp only at h
    split at h
    · cases h
    · split at h
      · exact (andE h).2
      · split at h
        · exact (andE h).2
        · exact (andE h).2

theorem bigEquivLowerA_filename (q : DirFileBigRefLowercaseA) (k : DirFileA)
    (h : q.equivalent k = true) : eqci q.filename k.filename = true := by
  unfold DirFileBigRefLowercaseA.equivalent at h
  split at h
  · cases h
  · dsimp only at h
    split at h
    · cases h
    · split at h
      · exact (andE h).2
      · split at h
        · exact (andE h).2
        · exact (andE h).2

/-- The directory text reconstructed by the big-ref hash implementations:
prefix, then (when the extra part is non-empty) a `/` separator when the
prefix is non-empty followed by the extra part. -/
def bigJoin (d e : List Nat) : List Nat :=
  d ++ (if e = [] then [] else (if d = [] then [] else [47]) ++ e)

theorem asciiLower_bigJoin (d e : List Nat) :
    asciiLower (bigJoin d e)
      = asciiLower d ++ (if e = [] then [] else (if d = [] then [] else [47]) ++ asciiLower e) := by
  rw [bigJoin, asciiLower_append]
  by_cases he : e = []
  · simp [he, asciiLower]
  · rw [if_neg he]
    by_cases hd : d = []
    · simp [hd, he, asciiLower]
    · rw [if_neg hd]
      simp [asciiLower_append, asciiLower, asciiLowerByte, he]

/-- C3 (amended): hash-stream agreement between an equivalent query and a
stored key holds for the lowercase reference shape unconditionally; for the
exact-case reference shape when the query bytes are ASCII-lowercase; and for
the two big-ref shapes when additionally the stored directory is, up to
ASCII case, exactly the query prefix joined to its extra directory with a
`/` when both are non-empty (the structure reconstructed by their `Hash`
implementations). -/
theorem c3_hash_consistency (q1 : DirFileRefLowercaseA) (q2 : DirFileRefA)
    (q3 : DirFileBigRefLowercaseA) (q4 : DirFileBigRefA) (k : DirFileA) :
    (q1.equivalent k = true → refLowerStreamA q1 = dfStreamA k) ∧
    (q2.equivalent k = true → LowerFixed q2.dir → LowerFixed q2.filename →
      refStreamA q2 = dfStreamA k) ∧
    (q3.equivalent k = true → asciiLower k.dir = asciiLower (bigJoin q3.dir q3.extra) →
      bigLowerStreamA q3 = dfStreamA k) ∧
    (q4.equivalent k = true → LowerFixed q4.dir → LowerFixed q4.extra →
      LowerFixed q4.filename → asciiLower k.dir = bigJoin q4.dir q4.extra →
      bigStreamA q4 = dfStreamA k) := by
  refine ⟨?_, ?_, ?_, ?_⟩
  · intro h
    obtain ⟨h1, h2⟩ := andE h
    rw [eqci_iff] at h1 h2
    rw [refLowerStreamA, dfStreamA, hashStrLower, hashStrLower, h1, h2]
  · intro h hd hf
    obtain ⟨h1, h2⟩ := andE h
    rw [eqci_iff] at h1 h2
    rw [refStreamA, dfStreamA, hashStr, hashStr]
    rw [LowerFixed] at hd hf
    rw [← hd, ← hf, h1, h2]
  · intro h hdir
    have hf := bigEquivLowerA_filename q3 k h
    rw [eqci_iff] at hf
    rw [asciiLower_bigJoin] at hdir
    rw [bigLowerStreamA, dfStreamA, hashStrLower, hf, ← List.append_assoc, ← hdir]
    simp
  · intro h hd he hf hdir
    have hfn := bigEquivA_filename q4 k h
    rw [eqci_iff] at hfn
    rw [bigStreamA, dfStreamA, hashStr]
    rw [LowerFixed] at hd he hf
    have hdir2 : q4.dir ++ (if q4.extra = [] then []
        else (if q4.dir = [] then [] else [47]) ++ q4.extra) = asciiLower k.dir := by
      rw [hdir, bigJoin]
    rw [← hf, hfn, ← List.append_assoc, hdir2]
    simp

/-- C3, counterexample: the exact-case reference `(dir "A", filename "b")`
is equivalent (case-insensitively) to the stored key `("a", "b")`, but its
hash stream keeps the raw `A` while the stream of the stored key lowercases, so
the two hashes differ and the lookup can miss. -/
theorem c3_counterexample :
    DirFileRefA.equivalent ⟨[65], [98]⟩ ⟨[97, 0, 98], 0, 1, 2, 3⟩ = true ∧
    refStreamA ⟨[65], [98]⟩ ≠ dfStreamA ⟨[97, 0, 98], 0, 1, 2, 3⟩ := by
  decide

/-- C3, witness: the four conjuncts at concrete keys — the stored key
(`materials/concrete`, `computerwall003`) against a mixed-case lowercase ref,
an already-lowercase exact ref, and the two big refs splitting
`concrete/computerwall003` under prefix `materials`. -/
theorem c3_witness :
    refLowerStreamA ⟨[77, 65, 84, 115], [70, 102]⟩
      = dfStreamA ⟨[109, 97, 116, 115, 0, 102, 102], 0, 4, 5, 7⟩ ∧
    refStreamA ⟨[109, 97, 116, 115], [102, 102]⟩
      = dfStreamA ⟨[109, 97, 116, 115, 0, 102, 102], 0, 4, 5, 7⟩ ∧
    bigLowerStreamA (DirFileBigRefLowercaseA.new [77, 97, 116] [115, 47, 70, 102])
      = dfStreamA ⟨[109, 97, 116, 47, 115, 0, 102, 102], 0, 5, 6, 8⟩ ∧
    bigStreamA (DirFileBigRefA.new [109, 97, 116] [115, 47, 102, 102])
      = dfStreamA ⟨[109, 97, 116, 47, 115, 0, 102, 102], 0, 5, 6, 8⟩ := by
  have h1 := (c3_hash_consistency ⟨[77, 65, 84, 115], [70, 102]⟩ ⟨[109, 97, 116, 115], [102, 102]⟩
    (DirFileBigRefLowercaseA.new [77, 97, 116] [115, 47, 70, 102])
    (DirFileBigRefA.new [109, 97, 116] [115, 47, 102, 102])
    ⟨[109, 97, 116, 115, 0, 102, 102], 0, 4, 5, 7⟩)
  have h2 := (c3_hash_consistency ⟨[77, 65, 84, 115], [70, 102]⟩ ⟨[109, 97, 116, 115], [102, 102]⟩
    (DirFileBigRefLowercaseA.new [77, 97, 116] [115, 47, 70, 102])
    (DirFileBigRefA.new [109, 97, 116] [115, 47, 102, 102])
    ⟨[109, 97, 116, 47, 115, 0, 102, 102], 0, 5, 6, 8⟩)
  exact ⟨h1.1 (by decide), h1.2.1 (by decide) (by decide) (by decide),
    h2.2.2.1 (by decide) (by decide),
    h2.2.2.2 (by decide) (by decide) (by decide) (by decide) (by decide)⟩

/-! ## C4 -/

theorem booleq {x y : Bool} (h : x = true ↔ y = true) : x = y := by
  cases x <;> cases y <;> simp_all

theorem orE {a b : Bool} (h : (a || b) = true) : a = true ∨ b = true := by
  simp at h
  exact h

theorem dirA_length (k : DirFileA) (h : k.Wf) : k.dir.length = k.dirE - k.dirS := by
  obtain ⟨h1, h2, h3, h4⟩ := h
  rw [DirFileA.dir, sliceR]
  simp only [List.length_take, List.length_drop]
  omega

theorem asciiLower_take (n : Nat) (l : List Nat) :
    asciiLower (l.take n) = (asciiLower l).take n := by
  simp [asciiLower, List.map_take]

theorem asciiLower_drop (n : Nat) (l : List Nat) :
    asciiLower (l.drop n) = (asciiLower l).drop n := by
  simp [asciiLower, List.map_drop]

theorem asciiLower_cons (a : Nat) (l : List Nat) :
    asciiLower (a :: l) = asciiLowerByte a :: asciiLower l := rfl

theorem bigEquivA_noextra (q : DirFileBigRefA) (k : DirFileA) (hwf : k.Wf)
    (hex : q.extra = []) :
    q.equivalent k = (eqci k.dir q.dir && eqci q.filename k.filename) := by
  have hlen := dirA_length k hwf
  unfold DirFileBigRefA.equivalent
  by_cases hg : q.dir.length + q.extra.length > k.dirE - k.dirS
  · rw [if_pos hg]
    have hne : eqci k.dir q.dir = false := by
      rw [Bool.eq_false_iff]
      intro hh
      have := eqci_length _ _ hh
      rw [hex] at hg
      simp at hg
      omega
    simp [hne]
  · rw [if_neg hg]
    rw [hex] at hg
    simp only [List.length_nil, Nat.add_zero, gt_iff_lt, Nat.not_lt] at hg
    rw [← hlen] at hg
    dsimp only
    by_cases ht : eqci (k.dir.take q.dir.length) q.dir = true
    · rw [if_neg (by simpa using ht), if_pos hex]
      have hiff : (k.dir.drop q.dir.length = []) ↔ (eqci k.dir q.dir = true) := by
        constructor
        · intro hh
          have h2 := List.take_append_drop q.dir.length k.dir
          rw [hh, List.append_nil] at h2
          rw [← h2]
          exact ht
        · intro hh
          have := eqci_length _ _ hh
          apply List.eq_nil_of_length_eq_zero
          simp [this]
      have hd2 : (decide (k.dir.drop q.dir.length = []) : Bool) = eqci k.dir q.dir := by
        by_cases hh : eqci k.dir q.dir = true
        · simp [hh, hiff.mpr hh]
        · have hb := Bool.eq_false_iff.mpr hh
          rw [hb]
          simp only [decide_eq_false_iff_not]
          intro h2
          exact hh (hiff.mp h2)
      rw [hd2]
    · rw [if_pos (by simpa using ht)]
      have hne : eqci k.dir q.dir = false := by
        rw [Bool.eq_false_iff]
        intro hh
        apply ht
        have hl := eqci_length _ _ hh
        rw [← hl, List.take_length]
        exact hh
      simp [hne]

/-- Evaluation of the access.rs big-ref equivalence once its guard and
prefix comparison pass, the extra part is non-empty, and the remainder of the
stored directory starts with a literal `/`. -/
theorem bigEquivA_eval_slash (q : DirFileBigRefA) (k : DirFileA) (rest : List Nat)
    (hg : ¬ (q.dir.length + q.extra.length > k.dirE - k.dirS))
    (ht : eqci (k.dir.take q.dir.length) q.dir = true) (hex : ¬ q.extra = [])
    (hd : k.dir.drop q.dir.length = 47 :: rest) :
    q.equivalent k = (eqci rest q.extra && eqci q.filename k.filename) := by
  unfold DirFileBigRefA.equivalent
  rw [if_neg hg]
  dsimp only
  rw [if_neg (by simpa using ht), if_neg hex, hd]

/-- As above, for a remainder that does not start with `/`. -/
theorem bigEquivA_eval_noslash (q : DirFileBigRefA) (k : DirFileA) (b : Nat)
    (rest : List Nat)
    (hg : ¬ (q.dir.length + q.extra.length > k.dirE - k.dirS))
    (ht : eqci (k.dir.take q.dir.length) q.dir = true) (hex : ¬ q.extra = [])
    (hd : k.dir.drop q.dir.length = b :: rest) (hb : b ≠ 47) :
    q.equivalent k = (eqci (b :: rest) q.extra && eqci q.filename k.filename) := by
  unfold DirFileBigRefA.equivalent
  rw [if_neg hg]
  dsimp only
  rw [if_neg (by simpa using ht), if_neg hex, hd]
  split
  · rename_i r heq
    cases heq
    exact absurd rfl hb
  · rfl

/-- As above, for an empty remainder (the catchall arm applies). -/
theorem bigEquivA_eval_nil (q : DirFileBigRefA) (k : DirFileA)
    (hg : ¬ (q.dir.length + q.extra.length > k.dirE - k.dirS))
    (ht : eqci (k.dir.take q.dir.length) q.dir = true) (hex : ¬ q.extra = [])
    (hd : k.dir.drop q.dir.length = []) :
    q.equivalent k = (eqci [] q.extra && eqci q.filename k.filename) := by
  unfold DirFileBigRefA.equivalent
  rw [if_neg hg]
  dsimp only
  rw [if_neg (by simpa using ht), if_neg hex, hd]

/-- C4 (amended): a big-ref query whose extra directory does not start with
`/` is equivalent to a stored key exactly when the filenames match
case-insensitively and the stored directory is, case-insensitively, the
prefix when the extra part is empty, and otherwise either the prefix and the
extra part joined with a `/` or their direct concatenation without one. -/
theorem c4_equiv_char (q : DirFileBigRefA) (k : DirFileA) (hwf : k.Wf)
    (hhead : q.extra.head? ≠ some 47) :
    q.equivalent k = (eqci q.filename k.filename &&
      (if q.extra = [] then eqci k.dir q.dir
       else (eqci k.dir (q.dir ++ 47 :: q.extra) || eqci k.dir (q.dir ++ q.extra)))) := by
  by_cases hex : q.extra = []
  · rw [if_pos hex, bigEquivA_noextra q k hwf hex, Bool.and_comm]
  · rw [if_neg hex]
    have hlen := dirA_length k hwf
    apply booleq
    constructor
    · intro h
      have hg : ¬ (q.dir.length + q.extra.length > k.dirE - k.dirS) := by
        intro hgg
        unfold DirFileBigRefA.equivalent at h
        rw [if_pos hgg] at h
        cases h
      have ht : eqci (k.dir.take q.dir.length) q.dir = true := by
        by_contra htt
        unfold DirFileBigRefA.equivalent at h
        rw [if_neg hg] at h
        dsimp only at h
        rw [if_pos (by simpa using htt)] at h
        cases h
      cases hrem : k.dir.drop q.dir.length with
      | nil =>
        rw [bigEquivA_eval_nil q k hg ht hex hrem] at h
        obtain ⟨h1, h2⟩ := andE h
        have := eqci_length _ _ h1
        exact absurd (List.eq_nil_of_length_eq_zero (by simpa using this.symm)) hex
      | cons b rest =>
        by_cases hb : b = 47
        · subst hb
          rw [bigEquivA_eval_slash q k rest hg ht hex hrem] at h
          obtain ⟨h1, h2⟩ := andE h
          have e1 : eqci k.dir (q.dir ++ 47 :: q.extra) = true := by
            rw [eqci_iff]
            conv_lhs => rw [← List.take_append_drop q.dir.length k.dir]
            rw [asciiLower_append, hrem, asciiLower_cons, asciiLower_append, asciiLower_cons]
            rw [eqci_iff] at ht h1
            rw [ht, h1]
          simp [h2, e1]
        · rw [bigEquivA_eval_noslash q k b rest hg ht hex hrem hb] at h
          obtain ⟨h1, h2⟩ := andE h
          have e1 : eqci k.dir (q.dir ++ q.extra) = true := by
            rw [eqci_iff]
            conv_lhs => rw [← List.take_append_drop q.dir.length k.dir]
            rw [asciiLower_append, asciiLower_append]
            rw [eqci_iff] at ht h1
            rw [ht, hrem, h1]
          simp [h2, e1]
    · intro h
      obtain ⟨hf, hdisj⟩ := andE h
      rcases orE hdisj with hL | hR
      · rw [eqci_iff, asciiLower_append, asciiLower_cons] at hL
        have hlL : k.dir.length = q.dir.length + (q.extra.length + 1) := by
          have h2 := congrArg List.length hL
          simp only [List.length_append, List.length_cons, asciiLower_length] at h2
          omega
        have hg : ¬ (q.dir.length + q.extra.length > k.dirE - k.dirS) := by
          rw [← hlen]
          omega
        have hqd : q.dir.length = (asciiLower q.dir).length := (asciiLower_length _).symm
        have htake : (asciiLower k.dir).take q.dir.length = asciiLower q.dir := by
          rw [hL, hqd, List.take_left]
        have hdropL : (asciiLower k.dir).drop q.dir.length
            = asciiLowerByte 47 :: asciiLower q.extra := by
          rw [hL, hqd, List.drop_left]
        have ht : eqci (k.dir.take q.dir.length) q.dir = true := by
          rw [eqci_iff, asciiLower_take, htake]
        have hdropLower : asciiLower (k.dir.drop q.dir.length) = 47 :: asciiLower q.extra := by
          rw [asciiLower_drop, hdropL]
          norm_num [asciiLowerByte]
        cases hrem : k.dir.drop q.dir.length with
        | nil =>
          rw [hrem] at hdropLower
          simp [asciiLower] at hdropLower
        | cons b rest =>
          rw [hrem, asciiLower_cons] at hdropLower
          injection hdropLower with hh1 hh2
          have hb47 : b = 47 := (asciiLowerByte_slash b).mp hh1
          subst hb47
          rw [bigEquivA_eval_slash q k rest hg ht hex hrem]
          have hre : eqci rest q.extra = true := by
            rw [eqci_iff]
            exact hh2
          simp [hre, hf]
      · rw [eqci_iff, asciiLower_append] at hR
        have hlL : k.dir.length = q.dir.length + q.extra.length := by
          have h2 := congrArg List.length hR
          simp only [List.length_append, asciiLower_length] at h2
          omega
        have hg : ¬ (q.dir.length + q.extra.length > k.dirE - k.dirS) := by
          rw [← hlen]
          omega
        have hqd : q.dir.length = (asciiLower q.dir).length := (asciiLower_length _).symm
        have htake : (asciiLower k.dir).take q.dir.length = asciiLower q.dir := by
          rw [hR, hqd, List.take_left]
        have hdropL : (asciiLower k.dir).drop q.dir.length = asciiLower q.extra := by
          rw [hR, hqd, List.drop_left]
        have ht : eqci (k.dir.take q.dir.length) q.dir = true := by
          rw [eqci_iff, asciiLower_take, htake]
        have hdropLower : asciiLower (k.dir.drop q.dir.length) = asciiLower q.extra := by
          rw [asciiLower_drop, hdropL]
        cases hrem : k.dir.drop q.dir.length with
        | nil =>
          rw [hrem] at hdropLower
          have : q.extra.length = 0 := by
            have h2 := congrArg List.length hdropLower
            simpa [asciiLower_length] using h2.symm
          exact absurd (List.eq_nil_of_length_eq_zero this) hex
        | cons b rest =>
          rw [hrem, asciiLower_cons] at hdropLower
          cases hext : q.extra with
          | nil => exact absurd hext hex
          | cons x e2 =>
            rw [hext, asciiLower_cons] at hdropLower
            injection hdropLower with hh1 hh2
            have hx47 : x ≠ 47 := by
              intro hxx
              apply hhead
              rw [hext, hxx]
              rfl
            have hb : b ≠ 47 := by
              intro hbb
              apply hx47
              apply (asciiLowerByte_slash x).mp
              rw [← hh1, hbb]
              decide
            rw [bigEquivA_eval_noslash q k b rest hg ht hex hrem hb]
            have hre : eqci (b :: rest) q.extra = true := by
              rw [eqci_iff, asciiLower_cons, hh1, hh2, hext, asciiLower_cons]
            simp [hre, hf]

/-- `materials` -/
def matB : List Nat := [109, 97, 116, 101, 114, 105, 97, 108, 115]

/-- `MateriaLs` -/
def matMixed : List Nat := [77, 97, 116, 101, 114, 105, 97, 76, 115]

/-- `concrete` -/
def concB : List Nat := [99, 111, 110, 99, 114, 101, 116, 101]

/-- `cOncrete` -/
def concBMixed : List Nat := [99, 79, 110, 99, 114, 101, 116, 101]

/-- `concretefloor001a` -/
def cf1aB : List Nat :=
  [99, 111, 110, 99, 114, 101, 116, 101, 102, 108, 111, 111, 114, 48, 48, 49, 97]

/-- `concretefloor001A` -/
def cf1aMixed : List Nat :=
  [99, 111, 110, 99, 114, 101, 116, 101, 102, 108, 111, 111, 114, 48, 48, 49, 65]

/-- The stored key (`materials/concrete`, `concretefloor001a`). -/
def storedC4 : DirFileA := ⟨matB ++ 47 :: concB ++ 0 :: cf1aB, 0, 18, 19, 36⟩

/-- C4 (amended): `new` splits the big filename at its last `/` (the whole
string is the filename when it has none); the resulting query is equivalent
to a stored key exactly when the filenames match case-insensitively and the
stored directory is, case-insensitively, the prefix alone (empty extra), or
the prefix and extra joined with a `/`, or — unlike the original claim —
their direct concatenation without a separator; and in particular both
`materials` + `concrete/concretefloor001a` and `materials/concrete` +
`concretefloor001a` are equivalent to the stored (`materials/concrete`,
`concretefloor001a`), case-insensitively too. -/
theorem c4_bigref_split (dir big : List Nat) (k : DirFileA) (hwf : k.Wf)
    (hhead : (DirFileBigRefA.new dir big).extra.head? ≠ some 47) :
    (¬ 47 ∈ big → DirFileBigRefA.new dir big = ⟨dir, [], big⟩) ∧
    (∀ e f, rsplitSlash big = some (e, f) → DirFileBigRefA.new dir big = ⟨dir, e, f⟩) ∧
    ((DirFileBigRefA.new dir big).equivalent k
      = (eqci (DirFileBigRefA.new dir big).filename k.filename &&
        (if (DirFileBigRefA.new dir big).extra = []
         then eqci k.dir (DirFileBigRefA.new dir big).dir
         else (eqci k.dir ((DirFileBigRefA.new dir big).dir
                ++ 47 :: (DirFileBigRefA.new dir big).extra)
            || eqci k.dir ((DirFileBigRefA.new dir big).dir
                ++ (DirFileBigRefA.new dir big).extra))))) ∧
    ((DirFileBigRefA.new matB (concB ++ 47 :: cf1aB)).equivalent storedC4 = true ∧
     (DirFileBigRefA.new (matB ++ 47 :: concB) cf1aB).equivalent storedC4 = true ∧
     (DirFileBigRefLowercaseA.new matMixed (concBMixed ++ 47 :: cf1aMixed)).equivalent
        storedC4 = true ∧
     (DirFileBigRefLowercaseA.new (matB ++ 47 :: concB) cf1aB).equivalent
        storedC4 = true) := by
  refine ⟨?_, ?_, c4_equiv_char (DirFileBigRefA.new dir big) k hwf hhead, by decide⟩
  · intro hns
    rw [DirFileBigRefA.new, rsplitSlash_none big hns]
  · intro e f he
    rw [DirFileBigRefA.new, he]

/-- C4, counterexample to the original "exactly when": the query (prefix
`ab`, big filename `cd/f`) is equivalent to the stored key whose directory
is `abcd` — the prefix and extra directory concatenated with no separating
slash even though the prefix is non-empty. -/
theorem c4_counterexample :
    DirFileBigRefA.equivalent (DirFileBigRefA.new [97, 98] [99, 100, 47, 102])
      ⟨[97, 98, 99, 100, 0, 102], 0, 4, 5, 6⟩ = true ∧
    DirFileA.dir ⟨[97, 98, 99, 100, 0, 102], 0, 4, 5, 6⟩ = [97, 98, 99, 100] ∧
    (DirFileBigRefA.new [97, 98] [99, 100, 47, 102]).extra = [99, 100] ∧
    ([97, 98, 99, 100] : List Nat) ≠ [97, 98] ++ 47 :: [99, 100] := by
  decide

/-- C4, witness: the split of `concrete/concretefloor001a` under prefix
`materials`, and its equivalence to the stored key. -/
theorem c4_witness :
    DirFileBigRefA.new matB (concB ++ 47 :: cf1aB) = ⟨matB, concB, cf1aB⟩ ∧
    (DirFileBigRefA.new matB (concB ++ 47 :: cf1aB)).equivalent storedC4 = true := by
  have h := c4_bigref_split matB (concB ++ 47 :: cf1aB) storedC4 (by decide) (by decide)
  exact ⟨h.2.1 concB cf1aB (by decide), h.2.2.2.1⟩
